import Mathlib

/-!
Verification development for the expression-rewriting core of the `ibis`
dataframe library (`src/ibis/expr/analysis.py`).

The expression DAG is embedded as the inductive type `Expr` below, collapsing
the Python `Expr` wrapper and its underlying `Node`: the spec states that two
expressions are equal iff their nodes are structurally equal, and every
operation in `analysis.py` works through `expr.op()`.  User-assigned names are
`Alias` nodes (`ops.Alias`), column names live inside `TableColumn`
(`ops.TableColumn`).  The node families follow the spec's data model:
Value nodes (Literal, TableColumn, comparison `Gt`, Reduction `Sum`, Alias,
Window, TableArrayView) and TableNode nodes (PhysicalTable, Selection,
Aggregation, Join).
-/

inductive Expr : Type where
  /-- `ops.Literal` (value irrelevant beyond identity; modelled as an Int). -/
  | lit (v : Int) : Expr
  /-- `ops.TableColumn(table, name)`. -/
  | column (table : Expr) (name : String) : Expr
  /-- a boolean comparison node, e.g. `ops.Greater(left, right)`. -/
  | gt (left : Expr) (right : Expr) : Expr
  /-- a reduction node, e.g. `ops.Sum(arg)`. -/
  | sumR (arg : Expr) : Expr
  /-- `ops.Alias(arg, name)`: a user-assigned name on a value. -/
  | aliasE (arg : Expr) (name : String) : Expr
  /-- `ops.Window(arg)` with a default window frame (the only frame the
  embedded code ever constructs). -/
  | windowE (arg : Expr) : Expr
  /-- `ops.TableArrayView(table)`: a single-column table viewed as an array,
  produced by `Table.to_array()`. -/
  | tableArrayView (table : Expr) : Expr
  /-- `ops.PhysicalTable` leaf: a named base relation with its column names. -/
  | physicalTable (name : String) (schema : List String) : Expr
  /-- `ops.Selection(table, selections, predicates, sort_keys)`. -/
  | selection (table : Expr) (selections : List Expr)
      (predicates : List Expr) (sortKeys : List Expr) : Expr
  /-- `ops.Aggregation(table, metrics, by, having, predicates, sort_keys)`. -/
  | aggregation (table : Expr) (metrics : List Expr) (groupBy : List Expr)
      (having : List Expr) (predicates : List Expr) (sortKeys : List Expr) : Expr
  /-- `ops.Join(left, right, predicates)` (any join kind, incl. cross join). -/
  | join (left : Expr) (right : Expr) (predicates : List Expr) : Expr
  deriving Repr

namespace Expr

mutual

/-- Structural equality of nodes (the Python `Node.equals` / `__eq__`):
deep value equality over all arguments. -/
def beq : Expr → Expr → Bool
  | lit v, lit w => v == w
  | column t n, column t' n' => beq t t' && n == n'
  | gt l r, gt l' r' => beq l l' && beq r r'
  | sumR a, sumR a' => beq a a'
  | aliasE a n, aliasE a' n' => beq a a' && n == n'
  | windowE a, windowE a' => beq a a'
  | tableArrayView t, tableArrayView t' => beq t t'
  | physicalTable n s, physicalTable n' s' => n == n' && s == s'
  | selection t s p k, selection t' s' p' k' =>
      beq t t' && beqList s s' && beqList p p' && beqList k k'
  | aggregation t m b h p k, aggregation t' m' b' h' p' k' =>
      beq t t' && beqList m m' && beqList b b' && beqList h h' &&
        beqList p p' && beqList k k'
  | join l r p, join l' r' p' => beq l l' && beq r r' && beqList p p'
  | _, _ => false

def beqList : List Expr → List Expr → Bool
  | [], [] => true
  | a :: as, b :: bs => beq a b && beqList as bs
  | _, _ => false

end

theorem beq_eq : ∀ (a b : Expr), beq a b = true ↔ a = b := by
  have main : ∀ n : Nat,
      (∀ a b : Expr, sizeOf a ≤ n → (beq a b = true ↔ a = b)) ∧
      (∀ as bs : List Expr, sizeOf as ≤ n → (beqList as bs = true ↔ as = bs)) := by
    intro n
    induction n using Nat.strong_induction_on with
    | _ n ih =>
      constructor
      · intro a b hs
        cases a <;> cases b <;> simp only [beq, Bool.and_eq_true] <;>
          try simp
        case column.column t m t' m' =>
          have h1 := (ih (sizeOf t) (by simp at hs; omega)).1 t t' (Nat.le_refl _)
          simp [h1]
        case gt.gt l r l' r' =>
          have h1 := (ih (sizeOf l) (by simp at hs; omega)).1 l l' (Nat.le_refl _)
          have h2 := (ih (sizeOf r) (by simp at hs; omega)).1 r r' (Nat.le_refl _)
          simp [h1, h2]
        case sumR.sumR a a' =>
          have h1 := (ih (sizeOf a) (by simp at hs; omega)).1 a a' (Nat.le_refl _)
          simp [h1]
        case aliasE.aliasE a m a' m' =>
          have h1 := (ih (sizeOf a) (by simp at hs; omega)).1 a a' (Nat.le_refl _)
          simp [h1]
        case windowE.windowE a a' =>
          have h1 := (ih (sizeOf a) (by simp at hs; omega)).1 a a' (Nat.le_refl _)
          simp [h1]
        case tableArrayView.tableArrayView t t' =>
          have h1 := (ih (sizeOf t) (by simp at hs; omega)).1 t t' (Nat.le_refl _)
          simp [h1]
        case selection.selection t s p k t' s' p' k' =>
          simp only [Expr.selection.sizeOf_spec] at hs
          have h1 := (ih (sizeOf t) (by omega)).1 t t' (Nat.le_refl _)
          have h2 := (ih (sizeOf s) (by omega)).2 s s' (Nat.le_refl _)
          have h3 := (ih (sizeOf p) (by omega)).2 p p' (Nat.le_refl _)
          have h4 := (ih (sizeOf k) (by omega)).2 k k' (Nat.le_refl _)
          simp [h1, h2, h3, h4, and_assoc]
        case aggregation.aggregation t m b h p k t' m' b' h' p' k' =>
          simp only [Expr.aggregation.sizeOf_spec] at hs
          have h1 := (ih (sizeOf t) (by omega)).1 t t' (Nat.le_refl _)
          have h2 := (ih (sizeOf m) (by omega)).2 m m' (Nat.le_refl _)
          have h3 := (ih (sizeOf b) (by omega)).2 b b' (Nat.le_refl _)
          have h4 := (ih (sizeOf h) (by omega)).2 h h' (Nat.le_refl _)
          have h5 := (ih (sizeOf p) (by omega)).2 p p' (Nat.le_refl _)
          have h6 := (ih (sizeOf k) (by omega)).2 k k' (Nat.le_refl _)
          simp [h1, h2, h3, h4, h5, h6, and_assoc]
        case join.join l r p l' r' p' =>
          simp only [Expr.join.sizeOf_spec] at hs
          have h1 := (ih (sizeOf l) (by omega)).1 l l' (Nat.le_refl _)
          have h2 := (ih (sizeOf r) (by omega)).1 r r' (Nat.le_refl _)
          have h3 := (ih (sizeOf p) (by omega)).2 p p' (Nat.le_refl _)
          simp [h1, h2, h3, and_assoc]
      · intro as bs hs
        cases as <;> cases bs <;> simp only [beqList, Bool.and_eq_true] <;>
          try simp
        case cons.cons a as b bs =>
          simp only [List.cons.sizeOf_spec] at hs
          have h1 := (ih (sizeOf a) (by omega)).1 a b (Nat.le_refl _)
          have h2 := (ih (sizeOf as) (by omega)).2 as bs (Nat.le_refl _)
          simp [h1, h2]
  intro a b
  exact (main (sizeOf a)).1 a b (Nat.le_refl _)

instance : DecidableEq Expr := fun a b => decidable_of_iff _ (beq_eq a b)

/-- TableNode family membership (spec §3: tables vs values). -/
def isTable : Expr → Bool
  | physicalTable .. | selection .. | aggregation .. | join .. => true
  | _ => false

/-- Value family membership: everything that is not a TableNode. -/
def isValue (e : Expr) : Bool := !e.isTable

/-- `ops.PhysicalTable` membership. -/
def isPhysical : Expr → Bool
  | physicalTable .. => true
  | _ => false

/-- `ops.Selection` membership. -/
def isSelection : Expr → Bool
  | selection .. => true
  | _ => false

/-- `ops.Join` membership. -/
def isJoin : Expr → Bool
  | join .. => true
  | _ => false

/-- `ops.TableColumn` membership. -/
def isColumn : Expr → Bool
  | column .. => true
  | _ => false

/-- `val.schema()` of a physical-table entry: its column names.  Only ever
consulted on `PhysicalTable` nodes in `analysis.py` (guarded by
`isinstance(..., ops.PhysicalTable)`). -/
def schemaOf : Expr → List String
  | physicalTable _ s => s
  | _ => []

/-- Modelled from the spec: `Node.blocks()` (defined in the missing
`ibis/expr/operations` module).  Spec §3: "A node's `blocks()` predicate marks
it opaque to lifting/substitution traversal (e.g., a Selection typically
blocks further lift-through unless explicitly handled)"; spec §4.5 speaks of a
"Selection [that] does not block further composition" — a bare
filter/sort-only Selection (no projection list) is such a pass-through, while
a Selection with a projection list blocks.  Base tables and Aggregations are
lineage boundaries: `_find_root_table` halts at blocking nodes and must yield
physical tables and aggregations as roots.  Value nodes never block. -/
def blocks : Expr → Bool
  | physicalTable .. => true
  | selection _ sels _ _ => !sels.isEmpty
  | aggregation .. => true
  | _ => false

/-- `expr.has_name()`: whether the underlying node resolves to a name
(a `TableColumn` carries its column name, an `Alias` its assigned name). -/
def hasName : Expr → Bool
  | column .. | aliasE .. => true
  | _ => false

/-- `expr.get_name()`; only consulted when `hasName` is true (the source
raises on unnamed expressions). -/
def getName : Expr → String
  | column _ n => n
  | aliasE _ n => n
  | _ => ""

/-- `node.flat_args()` restricted to expression arguments: every
expression-valued argument in declared order, with sequence-valued arguments
flattened.  Used by the traversal engine (spec §4.1). -/
def children : Expr → List Expr
  | lit _ => []
  | column t _ => [t]
  | gt l r => [l, r]
  | sumR a => [a]
  | aliasE a _ => [a]
  | windowE a => [a]
  | tableArrayView t => [t]
  | physicalTable _ _ => []
  | selection t s p k => t :: (s ++ p ++ k)
  | aggregation t m b h p k => t :: (m ++ b ++ h ++ p ++ k)
  | join l r p => l :: r :: p

/-- Immediate argument typing constraints of node construction: rebuilding a
node `type(node)(*new_args)` raises `IbisTypeError` exactly when an argument
has the wrong category (a value where a table is required or vice versa).
Models the error kind of spec §7 "TypeError-class: reconstructing a node with
new arguments violates arity/type constraints". -/
def wfNode : Expr → Bool
  | lit _ => true
  | column t _ => t.isTable
  | gt l r => l.isValue && r.isValue
  | sumR a => a.isValue
  | aliasE a _ => a.isValue
  | windowE a => a.isValue
  | tableArrayView t => t.isTable
  | physicalTable _ _ => true
  | selection t _ p k => t.isTable && p.all isValue && k.all isValue
  | aggregation t m b h p k =>
      t.isTable && m.all isValue && b.all isValue && h.all isValue &&
        p.all isValue && k.all isValue
  | join l r p => l.isTable && r.isTable && p.all isValue

end Expr

open Expr

/-! ## Substitution Engine (`Substitutor._substitute`, `sub_for`)

The Python mapping is keyed by nodes compared structurally; we carry it as an
association list.  The per-call memoization cache (`toolz.memoize` keyed by
`args[0]._key`) only avoids recomputation inside one call and does not change
the result, so it has no counterpart in the functional embedding. -/

/-- `mapping[node]`, `None` for a `KeyError`. -/
def lookupSubst (m : List (Expr × Expr)) (e : Expr) : Option Expr :=
  match m with
  | [] => none
  | (k, v) :: rest => if k = e then some v else lookupSubst rest e

/-- The tail of `Substitutor._substitute` after the argument loop, shared by
every constructor case of `substE`: mapping lookup first, then the `blocks()`
early return, then the `unchanged` short-circuit, then the guarded rebuild
(`type(node)(*new_args)` under `try/except IbisTypeError`).  `orig` is the
node being substituted, `cand` the node rebuilt with substituted
expression-arguments. -/
def substStep (m : List (Expr × Expr)) (orig cand : Expr) : Expr :=
  match lookupSubst m orig with
  | some r => r
  | none =>
    if orig.blocks then orig
    else if cand = orig then orig
    else if cand.wfNode then cand else orig

/-- `Substitutor._substitute(expr, mapping)`: return the mapping image if the
node is a key; otherwise stop at blocking nodes; otherwise substitute into the
expression-valued arguments (sequence arguments are skipped by the
`isinstance(arg, ir.Expr)` test in the source), return the original if nothing
changed, and rebuild — falling back to the original expression if the rebuild
raises `IbisTypeError` (modelled by `wfNode`). -/
def substE (m : List (Expr × Expr)) : Expr → Expr
  | .lit v => substStep m (.lit v) (.lit v)
  | .column t n => substStep m (.column t n) (.column (substE m t) n)
  | .gt l r => substStep m (.gt l r) (.gt (substE m l) (substE m r))
  | .sumR a => substStep m (.sumR a) (.sumR (substE m a))
  | .aliasE a n => substStep m (.aliasE a n) (.aliasE (substE m a) n)
  | .windowE a => substStep m (.windowE a) (.windowE (substE m a))
  | .tableArrayView t =>
      substStep m (.tableArrayView t) (.tableArrayView (substE m t))
  | .physicalTable n s => substStep m (.physicalTable n s) (.physicalTable n s)
  | .selection t s p k =>
      substStep m (.selection t s p k) (.selection (substE m t) s p k)
  | .aggregation t mm b h p k =>
      substStep m (.aggregation t mm b h p k)
        (.aggregation (substE m t) mm b h p k)
  | .join l r p => substStep m (.join l r p) (.join (substE m l) (substE m r) p)

/-- The node rebuilt with each expression-valued argument substituted
(`new_args` of `Substitutor._substitute`; sequence-valued arguments are not
`ir.Expr` instances and are left untouched). -/
def substArgs (m : List (Expr × Expr)) : Expr → Expr
  | .lit v => .lit v
  | .column t n => .column (substE m t) n
  | .gt l r => .gt (substE m l) (substE m r)
  | .sumR a => .sumR (substE m a)
  | .aliasE a n => .aliasE (substE m a) n
  | .windowE a => .windowE (substE m a)
  | .tableArrayView t => .tableArrayView (substE m t)
  | .physicalTable n s => .physicalTable n s
  | .selection t s p k => .selection (substE m t) s p k
  | .aggregation t mm b h p k => .aggregation (substE m t) mm b h p k
  | .join l r p => .join (substE m l) (substE m r) p

/-- `substE` in terms of the per-node candidate: the shape used by the
fail-soft theorems. -/
theorem substE_eq_step (m : List (Expr × Expr)) (e : Expr) :
    substE m e = substStep m e (substArgs m e) := by
  cases e <;> rfl

/-- `sub_for(expr, substitutions)`: substitution keyed by the ops of the
given expression pairs. -/
def sub_for (e : Expr) (substitutions : List (Expr × Expr)) : Expr :=
  substE substitutions e

example :
    substE [(physicalTable "t" ["a"], lit 1)]
      (gt (column (physicalTable "t" ["a"]) "a") (lit 0)) =
    gt (column (physicalTable "t" ["a"]) "a") (lit 0) := by decide

example :
    substE [(lit 0, lit 7)]
      (gt (column (physicalTable "t" ["a"]) "a") (lit 0)) =
    gt (column (physicalTable "t" ["a"]) "a") (lit 7) := by decide

/-! ## Subterm occurrence (used to state the blocking-boundary claim) -/

mutual

/-- `occursIn k e`: the node `k` occurs somewhere in the tree of `e`
(including `e` itself). -/
def occursIn (k : Expr) : Expr → Bool
  | .lit v => k = .lit v
  | .column t n => k = .column t n || occursIn k t
  | .gt l r => k = .gt l r || occursIn k l || occursIn k r
  | .sumR a => k = .sumR a || occursIn k a
  | .aliasE a n => k = .aliasE a n || occursIn k a
  | .windowE a => k = .windowE a || occursIn k a
  | .tableArrayView t => k = .tableArrayView t || occursIn k t
  | .physicalTable n s => k = .physicalTable n s
  | .selection t s p k' =>
      k = .selection t s p k' || occursIn k t || occursInList k s ||
        occursInList k p || occursInList k k'
  | .aggregation t m b h p k' =>
      k = .aggregation t m b h p k' || occursIn k t || occursInList k m ||
        occursInList k b || occursInList k h || occursInList k p ||
        occursInList k k'
  | .join l r p => k = .join l r p || occursIn k l || occursIn k r ||
      occursInList k p

def occursInList (k : Expr) : List Expr → Bool
  | [] => false
  | x :: xs => occursIn k x || occursInList k xs

end

/-- `k` occurs strictly inside `e`: somewhere in `e`'s tree but not as `e`
itself (a node cannot recur strictly below itself in a finite tree, so this
coincides with occurrence at a proper position). -/
def strictlyInside (k e : Expr) : Bool := k ≠ e && occursIn k e

/-! ## Root-table analyses

`lin.traverse` (spec §4.1, module `ibis/expr/lineage.py` not under `src/`) is
a lazy deduplicating walk feeding visitor results into a consumer; every
consumer in `analysis.py` builds a set or takes `any`/`all`, for which the
traversal order and the per-op deduplication are irrelevant, so each
`traverse(...)` call site is embedded as the corresponding recursive
collection over `children`. -/

mutual

/-- The results yielded by `lin.traverse(_find_root_table, e)`: a Selection is
yielded as a copy with predicates and sort keys erased (`lin.proceed,
op.__class__(table=op.table, selections=op.selections)`) while the traversal
proceeds into the original node's arguments; any other blocking op is yielded
as-is without descending (`lin.halt, op`); all other nodes are descended
silently (`lin.proceed, None`). -/
def rootsOf : Expr → List Expr
  | .lit _ => []
  | .column t _ => rootsOf t
  | .gt l r => rootsOf l ++ rootsOf r
  | .sumR a => rootsOf a
  | .aliasE a _ => rootsOf a
  | .windowE a => rootsOf a
  | .tableArrayView t => rootsOf t
  | .physicalTable n s => [.physicalTable n s]
  | .selection t s p k =>
      .selection t s [] [] ::
        (rootsOf t ++ rootsOfList s ++ rootsOfList p ++ rootsOfList k)
  | .aggregation t m b h p k => [.aggregation t m b h p k]
  | .join l r p => rootsOf l ++ rootsOf r ++ rootsOfList p

def rootsOfList : List Expr → List Expr
  | [] => []
  | x :: xs => rootsOf x ++ rootsOfList xs

end

/-- Set inclusion of the two collections (the Python sets compare with
`<=`). -/
def subsetB (l1 l2 : List Expr) : Bool := l1.all (fun x => decide (x ∈ l2))

/-- Nonempty intersection of the two collections (the Python `bool(s1 & s2)`). -/
def intersectsB (l1 l2 : List Expr) : Bool := l1.any (fun x => decide (x ∈ l2))

/-- `shares_all_roots(exprs, parents)`: the normalized root dependencies of
`exprs` are a subset of those of `parents`. -/
def shares_all_roots (exprs parents : Expr) : Bool :=
  subsetB (rootsOf exprs) (rootsOf parents)

/-- `shares_all_roots` seeded with a list of expressions (`lin.traverse`
accepts a list and seeds the walk with every element). -/
def sharesAllRootsL (exprs : List Expr) (parents : Expr) : Bool :=
  subsetB (rootsOfList exprs) (rootsOf parents)

/-- `shares_some_roots(exprs, parents)`: the normalized root dependencies
intersect. -/
def shares_some_roots (exprs parents : Expr) : Bool :=
  intersectsB (rootsOf exprs) (rootsOf parents)

/-- First-occurrence deduplication (`toolz.unique`). -/
def dedupAcc (seen : List Expr) : List Expr → List Expr
  | [] => []
  | x :: xs =>
      if x ∈ seen then dedupAcc seen xs else x :: dedupAcc (x :: seen) xs

/-- Modelled from the spec: `TableNode.root_tables()` (defined in the missing
`ibis/expr/operations` module).  Spec §3: "`root_tables()` of a TableNode
returns the minimal set of base-table dependencies it rests on."  A blocking
table is its own root; a join combines the distinct roots of its inputs; a
value combines the distinct roots of its expression arguments. -/
def root_tables : Expr → List Expr
  | .lit _ => []
  | .column t _ => root_tables t
  | .gt l r => dedupAcc [] (root_tables l ++ root_tables r)
  | .sumR a => root_tables a
  | .aliasE a _ => root_tables a
  | .windowE a => root_tables a
  | .tableArrayView t => root_tables t
  | .physicalTable n s => [.physicalTable n s]
  | .selection t s p k => [.selection t s p k]
  | .aggregation t m b h p k => [.aggregation t m b h p k]
  | .join l r _ => dedupAcc [] (root_tables l ++ root_tables r)

/-- `find_immediate_parent_tables(expr)`: every first occurrence of a table
in `expr`, without traversing into tables themselves (`lin.halt` at
`ir.Table`), deduplicated keeping first occurrences (`toolz.unique`). -/
def find_immediate_parent_tables (e : Expr) : List Expr :=
  dedupAcc [] (collectIPT e)
where
  collectIPT : Expr → List Expr
    | .lit _ => []
    | .column t _ => collectIPT t
    | .gt l r => collectIPT l ++ collectIPT r
    | .sumR a => collectIPT a
    | .aliasE a _ => collectIPT a
    | .windowE a => collectIPT a
    | .tableArrayView t => collectIPT t
    | .physicalTable n s => [.physicalTable n s]
    | .selection t s p k => [.selection t s p k]
    | .aggregation t m b h p k => [.aggregation t m b h p k]
    | .join l r p => [.join l r p]

/-! ## Simplifier / Root-Lifter (`ExprSimplifier`, `substitute_parents`)

`ExprSimplifier(expr, block_projection=b).get_result()` is embedded as
`simplifyE b expr`.  The method `lift` is `if isTable x then x else
simplifyE b x` (Value ops recurse via `_sub`; Selection and other TableNodes
are returned unchanged); it is inlined at each argument position so that the
recursion is structural. -/

/-- The last selection-list entry that is a physical table providing column
`n` verbatim (`_lift_TableColumn`'s loop keeps overwriting `lifted_root`, so
the last match wins). -/
def lastPhysMatch (sels : List Expr) (n : String) : Option Expr :=
  match sels with
  | [] => none
  | v :: rest =>
      match lastPhysMatch rest n with
      | some r => some r
      | none => if v.isPhysical && decide (n ∈ v.schemaOf) then some v else none

/-- `ExprSimplifier._lift_TableColumn(expr, block)` for `expr = column tbl n`:
if the parent table is a Selection with a bare physical-table entry providing
`n`, and lifting is not blocked, rewrite the reference to point at that
physical table (`self.lift(val, block=False)` leaves the physical table
unchanged); otherwise return the column unchanged. -/
def liftTableColumn (b : Bool) (tbl : Expr) (n : String) : Expr :=
  match tbl with
  | .selection t sels p k =>
      match lastPhysMatch sels n with
      | some pt =>
          if b then .column (.selection t sels p k) n else .column pt n
      | none => .column (.selection t sels p k) n
  | t => .column t n

mutual

/-- `ExprSimplifier(expr, block_projection=b).get_result()`: literals are
canonical; a TableColumn is lift-rewritten when `_lift_TableColumn` changes
it; a Selection is a frozen boundary returned unchanged; every other node has
its arguments lifted (`_lift_arg`, descending into sequence arguments) and is
rebuilt only if some argument changed. -/
def simplifyE (b : Bool) : Expr → Expr
  | .lit v => .lit v
  | .column tbl n =>
      let r := liftTableColumn b tbl n
      if r ≠ .column tbl n then r
      else
        let t' := if tbl.isTable then tbl else simplifyE b tbl
        if t' = tbl then .column tbl n else .column t' n
  | .selection t s p k => .selection t s p k
  | .gt l r =>
      let l' := if l.isTable then l else simplifyE b l
      let r' := if r.isTable then r else simplifyE b r
      if l' = l && r' = r then .gt l r else .gt l' r'
  | .sumR a =>
      let a' := if a.isTable then a else simplifyE b a
      if a' = a then .sumR a else .sumR a'
  | .aliasE a n =>
      let a' := if a.isTable then a else simplifyE b a
      if a' = a then .aliasE a n else .aliasE a' n
  | .windowE a =>
      let a' := if a.isTable then a else simplifyE b a
      if a' = a then .windowE a else .windowE a'
  | .tableArrayView t =>
      let t' := if t.isTable then t else simplifyE b t
      if t' = t then .tableArrayView t else .tableArrayView t'
  | .physicalTable n s => .physicalTable n s
  | .aggregation t m bys h p k =>
      let t' := if t.isTable then t else simplifyE b t
      let m' := liftList b m
      let bys' := liftList b bys
      let h' := liftList b h
      let p' := liftList b p
      let k' := liftList b k
      if t' = t && m' = m && bys' = bys && h' = h && p' = p && k' = k then
        .aggregation t m bys h p k
      else .aggregation t' m' bys' h' p' k'
  | .join l r p =>
      let l' := if l.isTable then l else simplifyE b l
      let r' := if r.isTable then r else simplifyE b r
      let p' := liftList b p
      if l' = l && r' = r && p' = p then .join l r p else .join l' r' p'

/-- `_lift_arg` on a sequence argument: lift each element. -/
def liftList (b : Bool) : List Expr → List Expr
  | [] => []
  | x :: xs => (if x.isTable then x else simplifyE b x) :: liftList b xs

end

/-- `ExprSimplifier.lift(expr, block)`. -/
def liftE (b : Bool) (x : Expr) : Expr := if x.isTable then x else simplifyE b x

/-- `substitute_parents(expr, past_projection=...)`: rewrite with
`ExprSimplifier`, blocking projection-crossing iff `past_projection` is
false. -/
def substitute_parents (e : Expr) (past_projection : Bool) : Expr :=
  simplifyE (!past_projection) e

example :
    substitute_parents
      (column
        (selection (physicalTable "t" ["a", "b"])
          [physicalTable "t" ["a", "b"]] [] []) "a") true =
    column (physicalTable "t" ["a", "b"]) "a" := by decide

example :
    substitute_parents
      (column
        (selection (physicalTable "t" ["a", "b"])
          [physicalTable "t" ["a", "b"]] [] []) "a") false =
    column
      (selection (physicalTable "t" ["a", "b"])
        [physicalTable "t" ["a", "b"]] [] []) "a" := by decide

/-! ## Reduction detection and filter pushdown -/

/-- `is_reduction(expr)`: whether a reduction occurs in the operator DAG
without crossing a table node (`lin.traverse` halting with `True` at
`ops.Reduction` and halting silently at any `ops.TableNode` — "don't go below
any table nodes"). -/
def is_reduction : Expr → Bool
  | .lit _ => false
  | .column t _ => is_reduction t
  | .gt l r => is_reduction l || is_reduction r
  | .sumR _ => true
  | .aliasE a _ => is_reduction a
  | .windowE a => is_reduction a
  | .tableArrayView t => is_reduction t
  | .physicalTable _ _ => false
  | .selection _ _ _ _ => false
  | .aggregation _ _ _ _ _ _ => false
  | .join _ _ _ => false

/-- The `TableColumn` nodes visited by
`lin.traverse(validate, pred, type=ir.Value)`: the walk only enqueues
value-category arguments, so a column's table (and everything below any table
node) is never entered. -/
def spineValueColumns : Expr → List Expr
  | .lit _ => []
  | .column t n => [.column t n]
  | .gt l r => spineValueColumns l ++ spineValueColumns r
  | .sumR a => spineValueColumns a
  | .aliasE a _ => spineValueColumns a
  | .windowE a => spineValueColumns a
  | .tableArrayView _ => []
  | .physicalTable _ _ => []
  | .selection _ _ _ _ => []
  | .aggregation _ _ _ _ _ _ => []
  | .join _ _ _ => []

/-- `_PushdownValidate._validate_projection(expr)` for a predicate column
`column colTable colName`: fold over the parent Selection's selection list;
a physical-table entry providing the name sets validity, an equally-named
`TableColumn` entry overwrites validity with the comparison of its own source
table against the predicate column's table (directly, or after lifting
without crossing projections); later entries overwrite earlier decisions
(the source loop keeps assigning `is_valid`). -/
def validateProjection (sels : List Expr) (colTable : Expr)
    (colName : String) : Bool :=
  sels.foldl
    (fun isValid val =>
      if val.isPhysical && decide (colName ∈ val.schemaOf) then true
      else
        match val with
        | .column ct vn =>
            if vn = colName then
              let lifted :=
                substitute_parents (.column colTable colName) false
              ct = colTable ||
                (match lifted with
                 | .column lt _ => ct = lt
                 | _ => false)
            else isValid
        | _ => isValid)
    false

/-- `_PushdownValidate(parent, pred).get_result()`: a predicate containing a
reduction is never pushdown-eligible; otherwise every `TableColumn` reachable
through value arguments must validate against the parent's selection list. -/
def pushdownValidate (sels : List Expr) (pred : Expr) : Bool :=
  if is_reduction pred then false
  else
    (spineValueColumns pred).all fun c =>
      match c with
      | .column ct cn => validateProjection sels ct cn
      | _ => true

/-- `_can_pushdown(op, predicates)`: every predicate must validate. -/
def can_pushdown (sels : List Expr) (predicates : List Expr) : Bool :=
  predicates.all (pushdownValidate sels)

/-- `_filter_selection(expr, predicates)` for `expr` a Selection: a
non-blocking Selection first attempts fusion after rewriting self-references
back to the child table (`sub_for(predicate, [(expr, op.table)])`, reductions
exempt), merging into the existing predicate list when lineage is preserved;
otherwise, if every predicate passes `_can_pushdown`, the predicates are
simplified by `substitute_parents` and appended to the existing Selection's
predicates with everything else unchanged; otherwise the original expression
is wrapped in a brand-new Selection with no projection list. -/
def filter_selection (tbl : Expr) (sels preds sks : List Expr)
    (predicates : List Expr) : Expr :=
  let expr : Expr := .selection tbl sels preds sks
  let fallback : Expr :=
    if can_pushdown sels predicates then
      .selection tbl sels
        (preds ++ predicates.map (fun x => substitute_parents x true)) sks
    else .selection expr [] predicates []
  if !expr.blocks then
    let simplified := predicates.map fun p =>
      if !is_reduction p then sub_for p [(expr, tbl)] else p
    if sharesAllRootsL simplified tbl then
      .selection tbl [] (preds ++ simplified) sks
    else fallback
  else fallback

/-- `apply_filter(expr, predicates)`: dispatch on the op — Selections go
through `_filter_selection`; Aggregations fuse the predicates (rewritten by
`sub_for(predicate, [(op.table, expr)])`, reductions exempt) into their own
predicate list when lineage is preserved; otherwise (and for any other table)
the expression is wrapped in a new Selection carrying the predicates, or
returned unchanged when there are none. -/
def apply_filter (e : Expr) (predicates : List Expr) : Expr :=
  match e with
  | .selection tbl sels preds sks => filter_selection tbl sels preds sks predicates
  | .aggregation t m bys h p k =>
      let simplified := predicates.map fun pred =>
        if !is_reduction pred then sub_for pred [(t, .aggregation t m bys h p k)]
        else pred
      if sharesAllRootsL simplified t then
        .aggregation t m bys h (p ++ simplified) k
      else if predicates.isEmpty then e
      else .selection e [] predicates []
  | e => if predicates.isEmpty then e else .selection e [] predicates []

/-! ## `windowize_function` and the Projector

`Projector` calls `windowize_function(expr)` with no window argument, so the
embedding specializes `w = None`.  The Python `_windowize` names a rebuilt
Window node with `x.get_name()`; names live in enclosing `Alias` nodes in this
embedding, which the generic `_walk` rebuild preserves, so no separate naming
step appears. -/

/-- The tail of `_windowize`: wrap a Reduction (or Analytic) result in a
default window (`walked.over(window())`); a Window result is returned as-is
(`w` is `None`); anything else passes through. -/
def wfinish : Expr → Expr
  | .sumR a => .windowE (.sumR a)
  | w => w

mutual

/-- `_windowize(x, w=None)`: walk the node (through the window operand for a
Window node), then `wfinish`. -/
def windowizeF : Expr → Expr
  | .lit v => wfinish (.lit v)
  | .column t n => wfinish (.column t n)
  | .gt l r =>
      wfinish
        (let l' := if l.isValue then windowizeF l else l
         let r' := if r.isValue then windowizeF r else r
         if l' = l && r' = r then .gt l r else .gt l' r')
  | .sumR a =>
      wfinish
        (let a' := if a.isValue then windowizeF a else a
         if a' = a then .sumR a else .sumR a')
  | .aliasE a n =>
      wfinish
        (let a' := if a.isValue then windowizeF a else a
         if a' = a then .aliasE a n else .aliasE a' n)
  | .windowE a =>
      wfinish
        (let a' := wwalk a
         if a' = a then .windowE a else .windowE a')
  | .tableArrayView t => wfinish (.tableArrayView t)
  | .physicalTable n s => wfinish (.physicalTable n s)
  | .selection t s p k => wfinish (.selection t s p k)
  | .aggregation t m b h p k => wfinish (.aggregation t m b h p k)
  | .join l r p => wfinish (.join l r p)

/-- `_walk(x, w=None)`: rebuild `x` with `_windowize` applied to each
value-category argument (`isinstance(arg, ir.Value)`; sequence and table
arguments are left untouched), keeping the original when nothing changed. -/
def wwalk : Expr → Expr
  | .lit v => .lit v
  | .column t n => .column t n
  | .gt l r =>
      let l' := if l.isValue then windowizeF l else l
      let r' := if r.isValue then windowizeF r else r
      if l' = l && r' = r then .gt l r else .gt l' r'
  | .sumR a =>
      let a' := if a.isValue then windowizeF a else a
      if a' = a then .sumR a else .sumR a'
  | .aliasE a n =>
      let a' := if a.isValue then windowizeF a else a
      if a' = a then .aliasE a n else .aliasE a' n
  | .windowE a =>
      let a' := if a.isValue then windowizeF a else a
      if a' = a then .windowE a else .windowE a'
  | .tableArrayView t => .tableArrayView t
  | .physicalTable n s => .physicalTable n s
  | .selection t s p k => .selection t s p k
  | .aggregation t m b h p k => .aggregation t m b h p k
  | .join l r p => .join l r p

end

/-- `windowize_function(expr)` as used by `Projector`. -/
def windowize_function (e : Expr) : Expr := windowizeF e

/-! ## Projection Fuser (`Projector`)

`Projector(parent, proj_exprs)` is embedded for expression-valued candidates:
`parent._ensure_expr` and `root_table._ensure_expr` pass expressions through
unchanged (string/callable inputs are outside the embedding), so
`resolved_exprs = proj_exprs` and `clean_exprs = map windowize_function
proj_exprs`, and the `try/except (AttributeError, IbisTypeError)` around
re-resolution never fires. -/

/-- The `* projection` splice of `Projector.try_fusion`: append the parent
Selection's own selection list (appending `root_table` for an entry equal to
it, which is the same value), and for a filter (no selections) prepend the
root table to the whole accumulated list. -/
def spliceStar (rootTable : Expr) (rootSels : List Expr)
    (acc : List Expr) : List Expr :=
  if rootSels.isEmpty then rootTable :: acc else acc ++ rootSels

/-- The `* projection` test of `Projector.try_fusion`'s candidate loop:
`isinstance(val, ir.Table) and (parent_op.equals(val.op()) or (len(roots) == 1
and val.op().root_tables()[0] is roots[0]))`. -/
def starCond (parentOp : Expr) (rootsRT : List Expr) (val : Expr) : Bool :=
  val.isTable &&
    (decide (val = parentOp) ||
      (decide (rootsRT.length = 1) &&
        decide ((root_tables val).head? = rootsRT.head?)))

/-- The candidate loop of `Projector.try_fusion`: `parentOp` is the parent
Selection node, `rootTable` its table, `rootSels` its selection list,
`rootsRT = root_table.op().root_tables()`.  Returns the final `can_fuse` flag
and accumulated `fused_exprs`; a candidate sharing not-all roots (both lifted
and unlifted failing) breaks out with `can_fuse = False`. -/
def fuseLoop (parentOp rootTable : Expr) (rootSels rootsRT : List Expr) :
    List Expr → Bool → List Expr → Bool × List Expr
  | [], canFuse, acc => (canFuse, acc)
  | val :: rest, canFuse, acc =>
      let lifted := substitute_parents val false
      if starCond parentOp rootsRT val then
        fuseLoop parentOp rootTable rootSels rootsRT rest true
          (spliceStar rootTable rootSels acc)
      else if shares_all_roots lifted rootTable then
        fuseLoop parentOp rootTable rootSels rootsRT rest true (acc ++ [lifted])
      else if !shares_all_roots val rootTable then (false, acc)
      else fuseLoop parentOp rootTable rootSels rootsRT rest canFuse (acc ++ [val])

/-- `Projector.try_fusion(root)` (`root` is the parent Selection op, asserted
equal to `self.parent.op()`): `None` models the fusion-declined return.  When
the root's table is not a Join, candidates are re-resolved against it — a
pass-through for expression inputs — and any disagreement with the windowized
`clean_exprs` declines fusion; an empty candidate list declines fusion; the
candidate loop then decides, and on success the fused Selection keeps the
root's table, predicates and sort keys. -/
def try_fusion (root : Expr) (inputs clean : List Expr) : Option Expr :=
  match root with
  | .selection rootTable rootSels rootPreds rootSks =>
      let resolved := if rootTable.isJoin then clean else inputs
      if !rootTable.isJoin && decide (resolved ≠ clean) then none
      else if resolved.isEmpty then none
      else
        let st := fuseLoop (.selection rootTable rootSels rootPreds rootSks)
          rootTable rootSels (root_tables rootTable) resolved false []
        if st.1 then some (.selection rootTable st.2 rootPreds rootSks)
        else none
  | _ => none

/-- `Projector(parent, proj_exprs).get_result()`: fusion is attempted exactly
when the parent's roots are the single Selection `parent` itself
(`parent_roots` is `[node]` for a Selection parent); otherwise — and whenever
`try_fusion` declines — the result is a new Selection wrapping the parent
with the windowized candidates.  (For a non-Selection parent whose
`root_tables()` is a single Selection the source would fail its own
`assert self.parent.op() == root`; no claim exercises that corner.) -/
def projector_get_result (parent : Expr) (projExprs : List Expr) : Expr :=
  let clean := projExprs.map windowize_function
  let parentRoots := if parent.isSelection then [parent] else root_tables parent
  match parentRoots with
  | [r] =>
      if r.isSelection then
        match try_fusion r projExprs clean with
        | some fused => fused
        | none => .selection parent clean [] []
      else .selection parent clean [] []
  | _ => .selection parent clean [] []

/-! ## Scalar-Reduction-to-Aggregation Rewriter -/

/-- Modelled from the spec: the `ir.Scalar` expression category (the missing
`ibis/expr/types` module).  Spec glossary: "Reduction: a Value node whose
evaluation aggregates many rows into one scalar"; literals are scalar, column
references and windowed values are columnar, and a compound value is scalar
when all of its inputs are. -/
def isScalarShape : Expr → Bool
  | .lit _ => true
  | .column _ _ => false
  | .gt l r => isScalarShape l && isScalarShape r
  | .sumR _ => true
  | .aliasE a _ => isScalarShape a
  | .windowE _ => false
  | .tableArrayView _ => false
  | .physicalTable _ _ => false
  | .selection _ _ _ _ => false
  | .aggregation _ _ _ _ _ _ => false
  | .join _ _ _ => false

/-- `is_scalar_reduction(expr)`. -/
def is_scalar_reduction (e : Expr) : Bool := isScalarShape e && is_reduction e

/-- `has_multiple_bases(expr)`. -/
def has_multiple_bases (e : Expr) : Bool :=
  (find_immediate_parent_tables e).length > 1

/-- The aggregation-unit branch at the top of `ScalarAggregate._visit`: a
scalar reduction over a single base is named (`'tmp'` when unnamed),
aggregated over its one immediate parent table
(`reduction_to_aggregation` hits its single-table branch,
`table.aggregate([expr])`), appended to `self.tables`, and replaced by the
aggregate's column of that name (`agg_expr[expr.get_name()]`).  `none` means
the branch does not apply and `_visit` falls through to the generic rebuild.
(With zero immediate parent tables the source would recurse forever through
`reduction_to_aggregation`; that shape is unreachable for reductions over
actual table data and is mapped to the generic rebuild here.) -/
def saunit (e : Expr) (tables : List Expr) : Option (Expr × List Expr) :=
  if is_scalar_reduction e && !has_multiple_bases e then
    let e' := if e.hasName then e else .aliasE e "tmp"
    match find_immediate_parent_tables e' with
    | [t] =>
        some (.column (.aggregation t [e'] [] [] [] []) e'.getName,
          tables ++ [.aggregation t [e'] [] [] [] []])
    | _ => none
  else none

mutual

/-- `ScalarAggregate._visit(expr)` with the `self.tables` accumulator
threaded: aggregation units are replaced via `saunit`; otherwise every
argument (sequence arguments elementwise; non-expressions unchanged) is
visited and the node rebuilt. -/
def savisit : Expr → List Expr → Expr × List Expr
  | .lit v, ts => ((saunit (.lit v) ts).getD (.lit v, ts))
  | .column t n, ts =>
      (saunit (.column t n) ts).getD
        (let p := savisit t ts
         (.column p.1 n, p.2))
  | .gt l r, ts =>
      (saunit (.gt l r) ts).getD
        (let p := savisit l ts
         let q := savisit r p.2
         (.gt p.1 q.1, q.2))
  | .sumR a, ts =>
      (saunit (.sumR a) ts).getD
        (let p := savisit a ts
         (.sumR p.1, p.2))
  | .aliasE a n, ts =>
      (saunit (.aliasE a n) ts).getD
        (let p := savisit a ts
         (.aliasE p.1 n, p.2))
  | .windowE a, ts =>
      (saunit (.windowE a) ts).getD
        (let p := savisit a ts
         (.windowE p.1, p.2))
  | .tableArrayView t, ts =>
      (saunit (.tableArrayView t) ts).getD
        (let p := savisit t ts
         (.tableArrayView p.1, p.2))
  | .physicalTable n s, ts => ((saunit (.physicalTable n s) ts).getD (.physicalTable n s, ts))
  | .selection t s p k, ts =>
      (saunit (.selection t s p k) ts).getD
        (let a := savisit t ts
         let b := savisitList s a.2
         let c := savisitList p b.2
         let d := savisitList k c.2
         (.selection a.1 b.1 c.1 d.1, d.2))
  | .aggregation t m bys h p k, ts =>
      (saunit (.aggregation t m bys h p k) ts).getD
        (let a := savisit t ts
         let b := savisitList m a.2
         let c := savisitList bys b.2
         let d := savisitList h c.2
         let f := savisitList p d.2
         let g := savisitList k f.2
         (.aggregation a.1 b.1 c.1 d.1 f.1 g.1, g.2))
  | .join l r p, ts =>
      (saunit (.join l r p) ts).getD
        (let a := savisit l ts
         let b := savisit r a.2
         let c := savisitList p b.2
         (.join a.1 b.1 c.1, c.2))

def savisitList : List Expr → List Expr → List Expr × List Expr
  | [], ts => ([], ts)
  | x :: xs, ts =>
      let p := savisit x ts
      let q := savisitList xs p.2
      (p.1 :: q.1, q.2)

end

/-- `ScalarAggregate(expr).get_result()`: visit, cross-join the collected
per-unit aggregate tables (`table.cross_join(other)` builds a Join node —
modelled from the spec, the table API module being absent), and project the
substituted expression over the joined result (`table.projection([...])`
constructs through `Projector`).  An empty `self.tables` would raise
`IndexError` in the source; the substituted expression is returned
unchanged here (unreachable for genuine multi-base reductions). -/
def scalar_aggregate (e : Expr) : Expr :=
  let p := savisit e []
  match p.2 with
  | [] => p.1
  | t0 :: rest =>
      projector_get_result (rest.foldl (fun acc t => .join acc t []) t0) [p.1]

/-- `reduction_to_aggregation(expr)`: a single immediate parent table means
`table.aggregate([expr])` (modelled from the spec: "the rewrite is
`table.aggregate([reduction])`", an Aggregation with the expression as its
only metric); otherwise the multi-base `ScalarAggregate` path. -/
def reduction_to_aggregation (e : Expr) : Expr :=
  match find_immediate_parent_tables e with
  | [t] => .aggregation t [e] [] [] [] []
  | _ => scalar_aggregate e

/-- `_rewrite_filter_reduction(_, expr, name)`: name the reduction if a name
was requested, aggregate it, and view the one-column aggregate as an array
(`aggregation.to_array()`, modelled from the spec as the `TableArrayView` of
the aggregate). -/
def rewrite_filter_reduction (name : Option String) (e : Expr) : Expr :=
  let e' := match name with
    | some n => .aliasE e n
    | none => e
  .tableArrayView (reduction_to_aggregation e')

/-- `_rewrite_filter(op, expr, name=...)` (single dispatch on the op):
Reductions go to `rewrite_filter_reduction`; `Any`/`TableColumn`/`Literal`/
exists-subqueries/`Window` pass through unchanged; an Alias recurses on its
argument carrying the requested (or its own) name; any other Value node
recurses into its expression arguments and rebuilds itself — renamed `"tmp"`
when unnamed — only if some child changed.  (Table ops are unregistered and
would raise `NotImplementedError` in the source; they are returned unchanged
here and are unreachable from filter predicates.) -/
def rewrite_filter (name : Option String) : Expr → Expr
  | .lit v => .lit v
  | .column t n => .column t n
  | .windowE a => .windowE a
  | .sumR a => rewrite_filter_reduction name (.sumR a)
  | .aliasE a n => rewrite_filter (some (name.getD n)) a
  | .gt l r =>
      let l' := rewrite_filter name l
      let r' := rewrite_filter name r
      if l' = l && r' = r then .gt l r
      else .aliasE (.gt l' r') (if (Expr.gt l r).hasName then (Expr.gt l r).getName else "tmp")
  | .tableArrayView t => .tableArrayView t
  | .physicalTable n s => .physicalTable n s
  | .selection t s p k => .selection t s p k
  | .aggregation t m b h p k => .aggregation t m b h p k
  | .join l r p => .join l r p

/-! ## Theorems -/

/-- Association-list lookup misses when no key matches. -/
theorem lookupSubst_none (m : List (Expr × Expr)) (e : Expr)
    (h : ∀ kv ∈ m, kv.1 ≠ e) : lookupSubst m e = none := by
  induction m with
  | nil => rfl
  | cons kv rest ih =>
      simp only [lookupSubst]
      rw [if_neg (h kv (List.mem_cons_self kv rest))]
      exact ih fun kv' hkv' => h kv' (List.mem_cons_of_mem kv hkv')

/-- Claim C2: substitution recursion stops at blocking nodes.  For a node `b`
with `blocks()` true and a mapping whose keys all lie strictly inside `b`'s
subtree, `substE` leaves `b` — and hence everything inside it — unaltered:
the mapping lookup misses (a strict subexpression is never the whole node)
and the `blocks()` early return fires before any argument is visited. -/
theorem substitute_blocking_boundary (m : List (Expr × Expr)) (b : Expr)
    (hb : b.blocks = true)
    (hk : ∀ kv ∈ m, strictlyInside kv.1 b = true) :
    substE m b = b := by
  have hne : ∀ kv ∈ m, kv.1 ≠ b := by
    intro kv hkv
    have := hk kv hkv
    simp only [strictlyInside, Bool.and_eq_true, decide_eq_true_eq,
      bne_iff_ne, ne_eq] at this
    exact this.1
  rw [substE_eq_step]
  unfold substStep
  rw [lookupSubst_none m b hne, hb]
  simp

/-- Witness for C2 at a concrete input: a blocking Selection with a mapping
keyed strictly inside it is returned unchanged. -/
theorem substitute_blocking_boundary_witness :
    (∀ kv ∈ [((Expr.physicalTable "t" ["a"]), Expr.physicalTable "u" ["x"])],
        strictlyInside kv.1
          (Expr.selection (.physicalTable "t" ["a"])
            [.physicalTable "t" ["a"]] [] []) = true) ∧
    substE [((Expr.physicalTable "t" ["a"]), Expr.physicalTable "u" ["x"])]
        (Expr.selection (.physicalTable "t" ["a"])
          [.physicalTable "t" ["a"]] [] []) =
      Expr.selection (.physicalTable "t" ["a"])
        [.physicalTable "t" ["a"]] [] [] := by
  refine ⟨by decide, ?_⟩
  exact substitute_blocking_boundary _ _ (by decide) (by decide)

/-- Claim C10: the mapping lookup precedes the `blocks()` check, so a
blocking node that is itself a key of the mapping is replaced by its image
even though nothing inside its subtree would be substituted. -/
theorem substitute_blocking_node_replaceable (m : List (Expr × Expr))
    (b r : Expr) (hb : b.blocks = true) (hl : lookupSubst m b = some r) :
    substE m b = r := by
  rw [substE_eq_step]
  unfold substStep
  rw [hl]

/-- Witness for C10 at a concrete input: a physical table (blocking) mapped
to a literal is replaced at the top level. -/
theorem substitute_blocking_node_replaceable_witness :
    (Expr.physicalTable "t" ["a"]).blocks = true ∧
    substE [((Expr.physicalTable "t" ["a"]), Expr.lit 1)]
        (Expr.physicalTable "t" ["a"]) = Expr.lit 1 := by
  refine ⟨by decide, ?_⟩
  exact substitute_blocking_node_replaceable _ _ _ (by decide) (by decide)

/-- Claim C1: fail-soft substitution.  `substE` is a total function (the
`IbisTypeError` of a failed node reconstruction is caught at the node and
never escapes), and whenever the rebuilt node with substituted arguments is
ill-typed (`wfNode` false, the modelled `IbisTypeError`), the substitution
for that node is abandoned and the original subexpression returned
unchanged. -/
theorem substitute_fail_soft (m : List (Expr × Expr)) (e : Expr)
    (hl : lookupSubst m e = none) (hb : e.blocks = false)
    (hw : (substArgs m e).wfNode = false) :
    substE m e = e := by
  rw [substE_eq_step]
  unfold substStep
  rw [hl, hb]
  by_cases hc : substArgs m e = e
  · simp [hc]
  · simp [hc, hw]

/-- Witness for C1 at a concrete input: substituting a literal for a column's
table makes the rebuilt `TableColumn` ill-typed, and the original column is
returned unchanged. -/
theorem substitute_fail_soft_witness :
    lookupSubst [((Expr.physicalTable "t" ["a"]), Expr.lit 1)]
        (Expr.column (.physicalTable "t" ["a"]) "a") = none ∧
    (Expr.column (.physicalTable "t" ["a"]) "a").blocks = false ∧
    (substArgs [((Expr.physicalTable "t" ["a"]), Expr.lit 1)]
        (Expr.column (.physicalTable "t" ["a"]) "a")).wfNode = false ∧
    substE [((Expr.physicalTable "t" ["a"]), Expr.lit 1)]
        (Expr.column (.physicalTable "t" ["a"]) "a") =
      Expr.column (.physicalTable "t" ["a"]) "a" := by
  refine ⟨by decide, by decide, by decide, ?_⟩
  exact substitute_fail_soft _ _ (by decide) (by decide) (by decide)

/-- `substStep` on an empty mapping with an unchanged candidate returns the
original. -/
theorem substStep_nil_self (e : Expr) : substStep [] e e = e := by
  unfold substStep lookupSubst
  by_cases hb : e.blocks <;> simp [hb]

/-- Substitution with the empty mapping is the identity, together with the
same statement for the rebuilt-arguments candidate. -/
theorem substE_nil (e : Expr) : substE [] e = e := by
  have main : ∀ n : Nat, ∀ e : Expr, sizeOf e ≤ n → substE [] e = e := by
    intro n
    induction n using Nat.strong_induction_on with
    | _ n ih =>
      intro e hs
      have args : substArgs [] e = e := by
        cases e with
        | lit v => rfl
        | column t nm =>
            simp only [substArgs]
            rw [ih (sizeOf t) (by simp at hs; omega) t (Nat.le_refl _)]
        | gt l r =>
            simp only [substArgs]
            rw [ih (sizeOf l) (by simp at hs; omega) l (Nat.le_refl _),
              ih (sizeOf r) (by simp at hs; omega) r (Nat.le_refl _)]
        | sumR a =>
            simp only [substArgs]
            rw [ih (sizeOf a) (by simp at hs; omega) a (Nat.le_refl _)]
        | aliasE a nm =>
            simp only [substArgs]
            rw [ih (sizeOf a) (by simp at hs; omega) a (Nat.le_refl _)]
        | windowE a =>
            simp only [substArgs]
            rw [ih (sizeOf a) (by simp at hs; omega) a (Nat.le_refl _)]
        | tableArrayView t =>
            simp only [substArgs]
            rw [ih (sizeOf t) (by simp at hs; omega) t (Nat.le_refl _)]
        | physicalTable nm s => rfl
        | selection t s p k =>
            simp only [substArgs]
            rw [ih (sizeOf t) (by simp at hs; omega) t (Nat.le_refl _)]
        | aggregation t m2 b h p k =>
            simp only [substArgs]
            rw [ih (sizeOf t) (by simp at hs; omega) t (Nat.le_refl _)]
        | join l r p =>
            simp only [substArgs]
            rw [ih (sizeOf l) (by simp at hs; omega) l (Nat.le_refl _),
              ih (sizeOf r) (by simp at hs; omega) r (Nat.le_refl _)]
      rw [substE_eq_step, args, substStep_nil_self]
  exact main (sizeOf e) e (Nat.le_refl _)

/-- A lift-eligible column: its parent table is a Selection with a bare
physical-table entry providing the column name verbatim — exactly the
situation in which `_lift_TableColumn` rewrites (when not blocked). -/
def liftEligible : Expr → Bool
  | .column (.selection _ sels _ _) n =>
      sels.any fun v => v.isPhysical && decide (n ∈ v.schemaOf)
  | _ => false

mutual

/-- No subterm of `e` (along any path) is a lift-eligible column: under this
condition the simplifier changes nothing. -/
def noLiftable : Expr → Bool
  | .lit _ => true
  | .column t n => !liftEligible (.column t n) && noLiftable t
  | .gt l r => noLiftable l && noLiftable r
  | .sumR a => noLiftable a
  | .aliasE a _ => noLiftable a
  | .windowE a => noLiftable a
  | .tableArrayView t => noLiftable t
  | .physicalTable _ _ => true
  | .selection t s p k =>
      noLiftable t && noLiftableList s && noLiftableList p && noLiftableList k
  | .aggregation t m b h p k =>
      noLiftable t && noLiftableList m && noLiftableList b &&
        noLiftableList h && noLiftableList p && noLiftableList k
  | .join l r p => noLiftable l && noLiftable r && noLiftableList p

def noLiftableList : List Expr → Bool
  | [] => true
  | x :: xs => noLiftable x && noLiftableList xs

end

/-- When no selection-list entry is a physical table providing `n`, the
lifting loop finds nothing. -/
theorem lastPhysMatch_none (sels : List Expr) (n : String)
    (h : (sels.any fun v => v.isPhysical && decide (n ∈ v.schemaOf)) = false) :
    lastPhysMatch sels n = none := by
  induction sels with
  | nil => rfl
  | cons v rest ih =>
      simp only [List.any_cons, Bool.or_eq_false_iff] at h
      simp only [lastPhysMatch, ih h.2, h.1]
      rfl

/-- A column that is not lift-eligible is unchanged by `_lift_TableColumn`. -/
theorem liftTableColumn_of_not_eligible (b : Bool) (tbl : Expr) (n : String)
    (h : liftEligible (.column tbl n) = false) :
    liftTableColumn b tbl n = .column tbl n := by
  cases tbl <;> simp only [liftTableColumn]
  case selection t sels p k =>
    simp only [liftEligible] at h
    rw [lastPhysMatch_none sels n h]

/-- If no subterm is a lift-eligible column, the simplifier is the identity
(the `unchanged` fast path of `ExprSimplifier.get_result` fires everywhere). -/
theorem simplifyE_of_noLiftable (b : Bool) (e : Expr)
    (h : noLiftable e = true) : simplifyE b e = e := by
  have main : ∀ n : Nat,
      (∀ (b : Bool) (e : Expr), sizeOf e ≤ n → noLiftable e = true →
        simplifyE b e = e) ∧
      (∀ (b : Bool) (xs : List Expr), sizeOf xs ≤ n → noLiftableList xs = true →
        liftList b xs = xs) := by
    intro n
    induction n using Nat.strong_induction_on with
    | _ n ih =>
      have liftOne : ∀ (b : Bool) (x : Expr), sizeOf x < n →
          noLiftable x = true → (if x.isTable then x else simplifyE b x) = x := by
        intro b x hx hnl
        by_cases ht : x.isTable
        · simp [ht]
        · simp only [ht, if_false, Bool.false_eq_true]
          exact (ih (sizeOf x) hx).1 b x (Nat.le_refl _) hnl
      constructor
      · intro b e hs hnl
        cases e with
        | lit v => rfl
        | column t nm =>
            simp only [noLiftable, Bool.and_eq_true] at hnl
            have h1 := liftTableColumn_of_not_eligible b t nm
              (by simpa using hnl.1)
            simp only [simplifyE, h1, ne_eq, not_true_eq_false, if_false,
              reduceIte]
            rw [liftOne b t (by simp at hs; omega) hnl.2]
            simp
        | gt l r =>
            simp only [noLiftable, Bool.and_eq_true] at hnl
            simp only [simplifyE]
            rw [liftOne b l (by simp at hs; omega) hnl.1,
              liftOne b r (by simp at hs; omega) hnl.2]
            simp
        | sumR a =>
            simp only [noLiftable] at hnl
            simp only [simplifyE]
            rw [liftOne b a (by simp at hs; omega) hnl]
            simp
        | aliasE a nm =>
            simp only [noLiftable] at hnl
            simp only [simplifyE]
            rw [liftOne b a (by simp at hs; omega) hnl]
            simp
        | windowE a =>
            simp only [noLiftable] at hnl
            simp only [simplifyE]
            rw [liftOne b a (by simp at hs; omega) hnl]
            simp
        | tableArrayView t =>
            simp only [noLiftable] at hnl
            simp only [simplifyE]
            rw [liftOne b t (by simp at hs; omega) hnl]
            simp
        | physicalTable nm s => rfl
        | selection t s p k => rfl
        | aggregation t m2 b2 hv p k =>
            simp only [noLiftable, Bool.and_eq_true] at hnl
            obtain ⟨⟨⟨⟨⟨hn1, hn2⟩, hn3⟩, hn4⟩, hn5⟩, hn6⟩ := hnl
            simp only [simplifyE]
            rw [liftOne b t (by simp at hs; omega) hn1,
              (ih (sizeOf m2) (by simp at hs; omega)).2 b m2 (Nat.le_refl _) hn2,
              (ih (sizeOf b2) (by simp at hs; omega)).2 b b2 (Nat.le_refl _) hn3,
              (ih (sizeOf hv) (by simp at hs; omega)).2 b hv (Nat.le_refl _) hn4,
              (ih (sizeOf p) (by simp at hs; omega)).2 b p (Nat.le_refl _) hn5,
              (ih (sizeOf k) (by simp at hs; omega)).2 b k (Nat.le_refl _) hn6]
            simp
        | join l r p =>
            simp only [noLiftable, Bool.and_eq_true] at hnl
            obtain ⟨⟨h1, h2⟩, h3⟩ := hnl
            simp only [simplifyE]
            rw [liftOne b l (by simp at hs; omega) h1,
              liftOne b r (by simp at hs; omega) h2,
              (ih (sizeOf p) (by simp at hs; omega)).2 b p (Nat.le_refl _) h3]
            simp
      · intro b xs hs hnl
        induction xs with
        | nil => rfl
        | cons x rest ihl =>
            simp only [noLiftableList, Bool.and_eq_true] at hnl
            simp only [liftList]
            rw [liftOne b x (by simp at hs; omega) hnl.1]
            congr 1
            exact (ih (sizeOf rest) (by simp at hs; omega)).2 b rest
              (Nat.le_refl _) hnl.2
  exact (main (sizeOf e)).1 b e (Nat.le_refl _) h

/-- Claim C4: identity preservation of no-op rewrites.  `substitute(e, {})`
returns `e` itself, and the simplifier returns `e` itself whenever no subterm
of `e` is changed by lifting (no lift-eligible column reference anywhere).
Referential identity is how the source realizes this (its `unchanged` fast
paths return the very same object); structural equality is what the embedding
expresses. -/
theorem identity_preservation (e : Expr) :
    substE [] e = e ∧
      (noLiftable e = true → substitute_parents e true = e) :=
  ⟨substE_nil e, fun h => simplifyE_of_noLiftable false e h⟩

/-- Witness for C4 at a concrete input. -/
theorem identity_preservation_witness :
    noLiftable (Expr.gt (.column (.physicalTable "t" ["a"]) "a") (.lit 0)) =
        true ∧
    substE [] (Expr.gt (.column (.physicalTable "t" ["a"]) "a") (.lit 0)) =
        Expr.gt (.column (.physicalTable "t" ["a"]) "a") (.lit 0) ∧
    substitute_parents
        (Expr.gt (.column (.physicalTable "t" ["a"]) "a") (.lit 0)) true =
      Expr.gt (.column (.physicalTable "t" ["a"]) "a") (.lit 0) :=
  ⟨by decide, (identity_preservation _).1, (identity_preservation _).2 (by decide)⟩

/-! ### Idempotence of the simplifier (claim C3) -/

/-- `ExprSimplifier.lift` of each list element. -/
theorem liftList_eq (b : Bool) (xs : List Expr) :
    liftList b xs = xs.map (liftE b) := by
  induction xs with
  | nil => rfl
  | cons x rest ih => simp only [liftList, liftE, List.map_cons, ih]

/-- `_lift_TableColumn` always produces a column of the same name. -/
theorem liftTableColumn_shape (b : Bool) (tbl : Expr) (n : String) :
    ∃ t', liftTableColumn b tbl n = .column t' n := by
  cases tbl <;> simp only [liftTableColumn]
  case selection t sels p k =>
    cases h : lastPhysMatch sels n with
    | none => exact ⟨_, rfl⟩
    | some pt =>
        by_cases hb : b
        · simp only [hb, if_true]
          exact ⟨_, rfl⟩
        · simp only [hb, if_false]
          exact ⟨_, rfl⟩
  all_goals exact ⟨_, rfl⟩

/-- The simplifier preserves the table/value category (it rebuilds with the
same constructor, and a lifted column stays a column). -/
theorem isTable_simplifyE (b : Bool) (e : Expr) :
    (simplifyE b e).isTable = e.isTable := by
  cases e <;> simp only [simplifyE]
  case column tbl n =>
    obtain ⟨t', h⟩ := liftTableColumn_shape b tbl n
    rw [h]
    split
    · rfl
    · split <;> split <;> rfl
  all_goals try rfl
  all_goals (repeat' split) <;> rfl

/-- A hit of the lifting loop is a physical table. -/
theorem lastPhysMatch_physical (sels : List Expr) (n : String) (v : Expr)
    (h : lastPhysMatch sels n = some v) : v.isPhysical = true := by
  induction sels with
  | nil => simp [lastPhysMatch] at h
  | cons w rest ih =>
      simp only [lastPhysMatch] at h
      cases hr : lastPhysMatch rest n with
      | some r => rw [hr] at h; exact ih (hr.trans (by injection h; simp_all))
      | none =>
          rw [hr] at h
          by_cases hc : w.isPhysical && decide (n ∈ w.schemaOf)
          · rw [if_pos hc] at h
            injection h with h'
            subst h'
            exact (Bool.and_eq_true _ _ |>.mp hc).1
          · rw [if_neg hc] at h
            cases h

/-- What a changed `_lift_TableColumn` result looks like: lifting happened
(`block` false) and the column now points at a physical table. -/
theorem liftTableColumn_changed (b : Bool) (tbl : Expr) (n : String)
    (h : liftTableColumn b tbl n ≠ .column tbl n) :
    b = false ∧ ∃ pt, pt.isPhysical = true ∧
      liftTableColumn b tbl n = .column pt n := by
  cases tbl <;> simp only [liftTableColumn] at h ⊢
  case selection t sels p k =>
    cases hm : lastPhysMatch sels n with
    | none => rw [hm] at h; exact absurd rfl h
    | some pt =>
        cases b with
        | true => rw [hm] at h; simp at h
        | false =>
            exact ⟨rfl, pt, lastPhysMatch_physical sels n pt hm, by simp⟩
  all_goals exact absurd rfl h

/-- `_lift_TableColumn` does not rewrite a column whose table is not a
Selection. -/
theorem liftTableColumn_not_selection (b : Bool) (t : Expr) (n : String)
    (h : t.isSelection = false) : liftTableColumn b t n = .column t n := by
  cases t <;> first
    | rfl
    | simp [Expr.isSelection] at h

/-- `lift` preserves the table/value category. -/
theorem isTable_liftE (b : Bool) (x : Expr) :
    (liftE b x).isTable = x.isTable := by
  unfold liftE
  by_cases h : x.isTable <;> simp [h, isTable_simplifyE]

/-- Normal form of the simplifier on a comparison node. -/
theorem simplifyE_gt (b : Bool) (l r : Expr) :
    simplifyE b (.gt l r) = .gt (liftE b l) (liftE b r) := by
  simp only [simplifyE, liftE]
  by_cases h1 : (if l.isTable then l else simplifyE b l) = l <;>
    by_cases h2 : (if r.isTable then r else simplifyE b r) = r <;>
    simp [h1, h2]

/-- Normal form of the simplifier on a reduction node. -/
theorem simplifyE_sumR (b : Bool) (a : Expr) :
    simplifyE b (.sumR a) = .sumR (liftE b a) := by
  simp only [simplifyE, liftE]
  by_cases h : (if a.isTable then a else simplifyE b a) = a <;> simp [h]

/-- Normal form of the simplifier on an alias node. -/
theorem simplifyE_aliasE (b : Bool) (a : Expr) (n : String) :
    simplifyE b (.aliasE a n) = .aliasE (liftE b a) n := by
  simp only [simplifyE, liftE]
  by_cases h : (if a.isTable then a else simplifyE b a) = a <;> simp [h]

/-- Normal form of the simplifier on a window node. -/
theorem simplifyE_windowE (b : Bool) (a : Expr) :
    simplifyE b (.windowE a) = .windowE (liftE b a) := by
  simp only [simplifyE, liftE]
  by_cases h : (if a.isTable then a else simplifyE b a) = a <;> simp [h]

/-- Normal form of the simplifier on a table-array view node. -/
theorem simplifyE_tableArrayView (b : Bool) (t : Expr) :
    simplifyE b (.tableArrayView t) = .tableArrayView (liftE b t) := by
  simp only [simplifyE, liftE]
  by_cases h : (if t.isTable then t else simplifyE b t) = t <;> simp [h]

/-- Normal form of the simplifier on an aggregation node. -/
theorem simplifyE_aggregation (b : Bool) (t : Expr) (m bys h p k : List Expr) :
    simplifyE b (.aggregation t m bys h p k) =
      .aggregation (liftE b t) (liftList b m) (liftList b bys) (liftList b h)
        (liftList b p) (liftList b k) := by
  simp only [simplifyE, liftE]
  by_cases h1 : (if t.isTable then t else simplifyE b t) = t <;>
    by_cases h2 : liftList b m = m <;>
    by_cases h3 : liftList b bys = bys <;>
    by_cases h4 : liftList b h = h <;>
    by_cases h5 : liftList b p = p <;>
    by_cases h6 : liftList b k = k <;>
    simp [h1, h2, h3, h4, h5, h6]

/-- Normal form of the simplifier on a join node. -/
theorem simplifyE_join (b : Bool) (l r : Expr) (p : List Expr) :
    simplifyE b (.join l r p) = .join (liftE b l) (liftE b r) (liftList b p) := by
  simp only [simplifyE, liftE]
  by_cases h1 : (if l.isTable then l else simplifyE b l) = l <;>
    by_cases h2 : (if r.isTable then r else simplifyE b r) = r <;>
    by_cases h3 : liftList b p = p <;>
    simp [h1, h2, h3]

/-- The simplifier is idempotent (core of claim C3), stated jointly with its
list companion for the induction. -/
theorem simplifyE_idem :
    ∀ (b : Bool) (e : Expr), simplifyE b (simplifyE b e) = simplifyE b e := by
  have main : ∀ n : Nat,
      (∀ (b : Bool) (e : Expr), sizeOf e ≤ n →
        simplifyE b (simplifyE b e) = simplifyE b e) ∧
      (∀ (b : Bool) (xs : List Expr), sizeOf xs ≤ n →
        liftList b (liftList b xs) = liftList b xs) := by
    intro n
    induction n using Nat.strong_induction_on with
    | _ n ih =>
      have liftFix : ∀ (b : Bool) (x : Expr), sizeOf x < n →
          liftE b (liftE b x) = liftE b x := by
        intro b x hx
        by_cases ht : x.isTable
        · simp [liftE, ht]
        · have h1 : liftE b x = simplifyE b x := by simp [liftE, ht]
          have h2 : (simplifyE b x).isTable = false := by
            rw [isTable_simplifyE]; simpa using ht
          rw [h1, liftE, h2]
          simpa using (ih (sizeOf x) hx).1 b x (Nat.le_refl _)
      constructor
      · intro b e hs
        cases e with
        | lit v => rfl
        | physicalTable nm s => rfl
        | selection t s p k => rfl
        | gt l r =>
            rw [simplifyE_gt, simplifyE_gt,
              liftFix b l (by simp at hs; omega),
              liftFix b r (by simp at hs; omega)]
        | sumR a =>
            rw [simplifyE_sumR, simplifyE_sumR,
              liftFix b a (by simp at hs; omega)]
        | aliasE a nm =>
            rw [simplifyE_aliasE, simplifyE_aliasE,
              liftFix b a (by simp at hs; omega)]
        | windowE a =>
            rw [simplifyE_windowE, simplifyE_windowE,
              liftFix b a (by simp at hs; omega)]
        | tableArrayView t =>
            rw [simplifyE_tableArrayView, simplifyE_tableArrayView,
              liftFix b t (by simp at hs; omega)]
        | aggregation t m2 bys hv p k =>
            rw [simplifyE_aggregation, simplifyE_aggregation,
              liftFix b t (by simp at hs; omega),
              (ih (sizeOf m2) (by simp at hs; omega)).2 b m2 (Nat.le_refl _),
              (ih (sizeOf bys) (by simp at hs; omega)).2 b bys (Nat.le_refl _),
              (ih (sizeOf hv) (by simp at hs; omega)).2 b hv (Nat.le_refl _),
              (ih (sizeOf p) (by simp at hs; omega)).2 b p (Nat.le_refl _),
              (ih (sizeOf k) (by simp at hs; omega)).2 b k (Nat.le_refl _)]
        | join l r p =>
            rw [simplifyE_join, simplifyE_join,
              liftFix b l (by simp at hs; omega),
              liftFix b r (by simp at hs; omega),
              (ih (sizeOf p) (by simp at hs; omega)).2 b p (Nat.le_refl _)]
        | column tbl nm =>
            by_cases hr : liftTableColumn b tbl nm = .column tbl nm
            · have e1 : simplifyE b (.column tbl nm) =
                  if liftE b tbl = tbl then .column tbl nm
                  else .column (liftE b tbl) nm := by
                simp only [simplifyE, liftE, hr]
                simp
              by_cases hL : liftE b tbl = tbl
              · rw [e1, if_pos hL, e1, if_pos hL]
              · rw [e1, if_neg hL]
                have htbl : tbl.isTable = false := by
                  by_contra hc
                  simp only [Bool.not_eq_false] at hc
                  exact hL (by simp [liftE, hc])
                have hlift : liftE b tbl = simplifyE b tbl := by
                  simp [liftE, htbl]
                have hnt : (simplifyE b tbl).isTable = false := by
                  rw [isTable_simplifyE]; exact htbl
                have hnsel : (simplifyE b tbl).isSelection = false := by
                  cases hq : simplifyE b tbl <;> simp_all [Expr.isTable, Expr.isSelection]
                have hr2 : liftTableColumn b (simplifyE b tbl) nm =
                    .column (simplifyE b tbl) nm :=
                  liftTableColumn_not_selection b _ nm hnsel
                have hfix : liftE b (simplifyE b tbl) = simplifyE b tbl := by
                  rw [liftE]
                  simp only [hnt, Bool.false_eq_true, if_false]
                  exact (ih (sizeOf tbl) (by simp at hs; omega)).1 b tbl
                    (Nat.le_refl _)
                have e2 : simplifyE b (.column (simplifyE b tbl) nm) =
                    .column (simplifyE b tbl) nm := by
                  simp only [simplifyE, liftE, hr2]
                  simp only [ne_eq, not_true_eq_false, if_false, reduceIte]
                  rw [show (if (simplifyE b tbl).isTable = true then simplifyE b tbl
                        else simplifyE b (simplifyE b tbl)) = simplifyE b tbl from by
                      simpa [liftE, hnt] using hfix]
                  simp
                rw [hlift, e2]
            · obtain ⟨hbf, pt, hpt, hres⟩ := liftTableColumn_changed b tbl nm hr
              rw [hres] at hr
              have e1 : simplifyE b (.column tbl nm) = .column pt nm := by
                simp only [simplifyE, hres]
                simp [hr]
              have hptT : pt.isTable = true := by
                cases pt <;> simp_all [Expr.isPhysical, Expr.isTable]
              have hptS : pt.isSelection = false := by
                cases pt <;> simp_all [Expr.isPhysical, Expr.isSelection]
              have hr2 := liftTableColumn_not_selection b pt nm hptS
              have e2 : simplifyE b (.column pt nm) = .column pt nm := by
                simp only [simplifyE, hr2]
                simp [hptT]
              rw [e1, e2]
      · intro b xs hs
        induction xs with
        | nil => rfl
        | cons x rest ihl =>
            simp only [liftList]
            have hx : liftE b (liftE b x) = liftE b x :=
              liftFix b x (by simp at hs; omega)
            simp only [liftE] at hx
            rw [hx]
            congr 1
            exact (ih (sizeOf rest) (by simp at hs; omega)).2 b rest
              (Nat.le_refl _)
  intro b e
  exact (main (sizeOf e)).1 b e (Nat.le_refl _)

/-- Claim C3: `simplify` (`substitute_parents`) is idempotent — simplifying a
second time changes nothing. -/
theorem simplify_idempotent (e : Expr) :
    substitute_parents (substitute_parents e true) true = substitute_parents e true :=
  simplifyE_idem false e

/-! ### Root-equivalence under cosmetic change (claim C5) -/

/-- Membership in the collected roots of a list of seeds. -/
theorem mem_rootsOfList (x : Expr) (l : List Expr) :
    x ∈ rootsOfList l ↔ ∃ p ∈ l, x ∈ rootsOf p := by
  induction l with
  | nil => simp [rootsOfList]
  | cons p rest ih => simp [rootsOfList, List.mem_append, ih]

/-- `subsetB` is boolean set inclusion. -/
theorem subsetB_iff (l1 l2 : List Expr) :
    subsetB l1 l2 = true ↔ ∀ x ∈ l1, x ∈ l2 := by
  simp [subsetB, List.all_eq_true]

/-- Counterexample to claim C5 as universally stated: two Selections over the
same table differing only in their predicate lists whose normalized root sets
are NOT equal and for which `shares_all_roots` is false — the traversal of
`_find_root_table` proceeds into the original Selection's predicate
arguments, so a predicate referencing a foreign table contributes that
table's root. -/
theorem root_equiv_counterexample :
    (Expr.physicalTable "u" ["x"]) ∈
        rootsOf (.selection (.physicalTable "t" ["a"]) []
          [.gt (.column (.physicalTable "u" ["x"]) "x") (.lit 0)] []) ∧
    (Expr.physicalTable "u" ["x"]) ∉
        rootsOf (.selection (.physicalTable "t" ["a"]) [] [] []) ∧
    shares_all_roots
        (.selection (.physicalTable "t" ["a"]) []
          [.gt (.column (.physicalTable "u" ["x"]) "x") (.lit 0)] [])
        (.selection (.physicalTable "t" ["a"]) [] [] []) = false := by
  refine ⟨by decide, by decide, by decide⟩

/-- Claim C5 as amended: for two Selections over the same table with the same
selection list, differing only in predicates and/or sort keys, whose
predicates and sort keys only contribute roots already contributed by the
erased Selection (in particular any predicate over the common table), the
normalized root-table sets are equal and `shares_all_roots` holds between
them.  Normalization indeed replaces each Selection by a predicate- and
sort-key-free copy. -/
theorem root_equiv_amended (t : Expr) (sels preds1 sks1 preds2 sks2 : List Expr)
    (h : ∀ p ∈ preds1 ++ sks1 ++ preds2 ++ sks2,
        subsetB (rootsOf p) (rootsOf (.selection t sels [] [])) = true) :
    subsetB (rootsOf (.selection t sels preds1 sks1))
        (rootsOf (.selection t sels preds2 sks2)) = true ∧
    subsetB (rootsOf (.selection t sels preds2 sks2))
        (rootsOf (.selection t sels preds1 sks1)) = true ∧
    shares_all_roots (.selection t sels preds1 sks1)
        (.selection t sels preds2 sks2) = true := by
  have expand : ∀ (ps ks : List Expr), rootsOf (.selection t sels ps ks) =
      .selection t sels [] [] ::
        (rootsOf t ++ rootsOfList sels ++ rootsOfList ps ++ rootsOfList ks) := by
    intro ps ks
    simp [rootsOf]
  have base_mem : ∀ (ps ks : List Expr) (x : Expr),
      x ∈ rootsOf (.selection t sels [] []) →
      x ∈ rootsOf (.selection t sels ps ks) := by
    intro ps ks x hx
    rw [expand [] []] at hx
    rw [expand ps ks]
    rcases List.mem_cons.mp hx with h0 | h0
    · exact List.mem_cons.mpr (Or.inl h0)
    · refine List.mem_cons.mpr (Or.inr ?_)
      simp only [rootsOfList, List.append_nil] at h0
      simp only [List.mem_append]
      rcases List.mem_append.mp h0 with h1 | h1
      · exact Or.inl (Or.inl (Or.inl h1))
      · exact Or.inl (Or.inl (Or.inr h1))
  have into_base : ∀ (ps ks : List Expr),
      (∀ p ∈ ps, subsetB (rootsOf p) (rootsOf (.selection t sels [] [])) = true) →
      (∀ p ∈ ks, subsetB (rootsOf p) (rootsOf (.selection t sels [] [])) = true) →
      ∀ x ∈ rootsOf (.selection t sels ps ks),
        x ∈ rootsOf (.selection t sels [] []) := by
    intro ps ks hps hks x hx
    rw [expand ps ks] at hx
    rw [expand [] []]
    rcases List.mem_cons.mp hx with h0 | h0
    · exact List.mem_cons.mpr (Or.inl h0)
    · simp only [List.mem_append] at h0
      rcases h0 with ((h1 | h1) | h1) | h1
      · refine List.mem_cons.mpr (Or.inr ?_)
        simp only [rootsOfList, List.append_nil, List.mem_append]
        exact Or.inl h1
      · refine List.mem_cons.mpr (Or.inr ?_)
        simp only [rootsOfList, List.append_nil, List.mem_append]
        exact Or.inr h1
      · obtain ⟨p, hp, hxp⟩ := (mem_rootsOfList x ps).mp h1
        exact (subsetB_iff _ _).mp (hps p hp) x hxp
      · obtain ⟨p, hp, hxp⟩ := (mem_rootsOfList x ks).mp h1
        exact (subsetB_iff _ _).mp (hks p hp) x hxp
  have h1 : ∀ p ∈ preds1, subsetB (rootsOf p) (rootsOf (.selection t sels [] [])) = true :=
    fun p hp => h p (by simp [hp])
  have h2 : ∀ p ∈ sks1, subsetB (rootsOf p) (rootsOf (.selection t sels [] [])) = true :=
    fun p hp => h p (by simp [hp])
  have h3 : ∀ p ∈ preds2, subsetB (rootsOf p) (rootsOf (.selection t sels [] [])) = true :=
    fun p hp => h p (by simp [hp])
  have h4 : ∀ p ∈ sks2, subsetB (rootsOf p) (rootsOf (.selection t sels [] [])) = true :=
    fun p hp => h p (by simp [hp])
  have sub12 : subsetB (rootsOf (.selection t sels preds1 sks1))
      (rootsOf (.selection t sels preds2 sks2)) = true := by
    rw [subsetB_iff]
    intro x hx
    exact base_mem preds2 sks2 x (into_base preds1 sks1 h1 h2 x hx)
  have sub21 : subsetB (rootsOf (.selection t sels preds2 sks2))
      (rootsOf (.selection t sels preds1 sks1)) = true := by
    rw [subsetB_iff]
    intro x hx
    exact base_mem preds1 sks1 x (into_base preds2 sks2 h3 h4 x hx)
  exact ⟨sub12, sub21, sub12⟩

/-- Witness for the amended C5 at a concrete input: two filters over the same
physical table differing only in their predicates have equal normalized root
sets and share all roots. -/
theorem root_equiv_amended_witness :
    (∀ p ∈ ([Expr.gt (.column (.physicalTable "t" ["a"]) "a") (.lit 0)] ++ [] ++
        [Expr.gt (.column (.physicalTable "t" ["a"]) "a") (.lit 5)] ++ []),
      subsetB (rootsOf p)
        (rootsOf (.selection (.physicalTable "t" ["a"]) [] [] [])) = true) ∧
    shares_all_roots
        (.selection (.physicalTable "t" ["a"]) []
          [.gt (.column (.physicalTable "t" ["a"]) "a") (.lit 0)] [])
        (.selection (.physicalTable "t" ["a"]) []
          [.gt (.column (.physicalTable "t" ["a"]) "a") (.lit 5)] []) = true := by
  refine ⟨by decide, ?_⟩
  exact (root_equiv_amended (.physicalTable "t" ["a"]) [] _ _ _ _ (by decide)).2.2

/-! ### Projection fusion abort (claim C6) -/

/-- If some candidate in the list fails the star-projection test, fails
lifted root-sharing, and fails unlifted root-sharing, the candidate loop ends
with `can_fuse = False` (either it breaks at that candidate or it already
broke at an earlier one). -/
theorem fuseLoop_abort (P RT : Expr) (RS RR : List Expr) :
    ∀ (vals : List Expr) (cf : Bool) (acc : List Expr),
      (∃ v ∈ vals, starCond P RR v = false ∧
        shares_all_roots (substitute_parents v false) RT
          = false ∧
        shares_all_roots v RT = false) →
      (fuseLoop P RT RS RR vals cf acc).1 = false := by
  intro vals
  induction vals with
  | nil => rintro cf acc ⟨v, hv, _⟩; cases hv
  | cons v rest ih =>
      rintro cf acc ⟨w, hw, hw1, hw2, hw3⟩
      rcases List.mem_cons.mp hw with rfl | hwrest
      · simp only [fuseLoop, hw1, Bool.false_eq_true, if_false, hw2, hw3,
          Bool.not_false, if_true]
      · simp only [fuseLoop]
        by_cases h1 : starCond P RR v
        · simp only [h1, if_true]
          exact ih _ _ ⟨w, hwrest, hw1, hw2, hw3⟩
        · simp only [h1, Bool.false_eq_true, if_false]
          by_cases h2 : shares_all_roots
              (substitute_parents v false) RT
          · simp only [h2, if_true]
            exact ih _ _ ⟨w, hwrest, hw1, hw2, hw3⟩
          · simp only [h2, Bool.false_eq_true, if_false]
            by_cases h3 : shares_all_roots v RT
            · simp only [h3, Bool.not_true, Bool.false_eq_true, if_false]
              exact ih _ _ ⟨w, hwrest, hw1, hw2, hw3⟩
            · simp only [h3, Bool.not_false, if_true]

/-- Counterexample to claim C6 as stated: a literal candidate shares NO roots
with the parent Selection's table (its root set is empty), yet fusion is not
aborted — the loop's lifted-root test `shares_all_roots` passes vacuously and
the literal is fused, producing a fused Selection over the underlying table
rather than a wrapping Selection over the parent. -/
theorem projection_fusion_counterexample :
    shares_some_roots (.lit 5) (.physicalTable "t" ["a"]) = false ∧
    projector_get_result
        (.selection (.physicalTable "t" ["a"]) [.physicalTable "t" ["a"]] [] [])
        [.lit 5] =
      .selection (.physicalTable "t" ["a"]) [.lit 5] [] [] ∧
    (Expr.selection (.physicalTable "t" ["a"]) [.lit 5] [] []) ≠
      .selection
        (.selection (.physicalTable "t" ["a"]) [.physicalTable "t" ["a"]] [] [])
        [.lit 5] [] [] := by
  refine ⟨by decide, by decide, by decide⟩

/-- Claim C6 as amended: fusion is all-or-nothing with the abort condition
the code actually tests — if any windowized candidate is not a
star-projection, its lifted form does not share all roots with the parent's
underlying table, and the candidate itself does not share all roots with it,
then fusion is aborted for the entire candidate list and the result is a new
Selection wrapping the parent (a nested Selection), never a partially fused
one. -/
theorem projection_fusion_abort (rt : Expr) (rsels rpreds rsks : List Expr)
    (cands : List Expr)
    (h : ∃ v ∈ cands.map windowize_function,
        starCond (.selection rt rsels rpreds rsks) (root_tables rt) v = false ∧
        shares_all_roots (substitute_parents v false) rt
          = false ∧
        shares_all_roots v rt = false) :
    projector_get_result (.selection rt rsels rpreds rsks) cands =
      .selection (.selection rt rsels rpreds rsks)
        (cands.map windowize_function) [] [] := by
  obtain ⟨v, hv, hv1, hv2, hv3⟩ := h
  have hne : (cands.map windowize_function) ≠ [] := by
    intro hc; rw [hc] at hv; cases hv
  have key : try_fusion (.selection rt rsels rpreds rsks) cands
      (List.map windowize_function cands) = none := by
    simp only [try_fusion]
    by_cases hj : rt.isJoin
    · have habort := fuseLoop_abort (.selection rt rsels rpreds rsks) rt rsels
        (root_tables rt) (List.map windowize_function cands) false []
        ⟨v, hv, hv1, hv2, hv3⟩
      simp only [hj, if_true, Bool.not_true, Bool.false_and,
        Bool.false_eq_true, if_false]
      rw [if_neg (by simpa [List.isEmpty_iff] using hne)]
      simp only [habort, Bool.false_eq_true, if_false]
    · simp only [hj, Bool.false_eq_true, if_false, Bool.not_false,
        Bool.true_and, decide_eq_true_eq]
      by_cases hmm : cands = List.map windowize_function cands
      · have hv2' : v ∈ cands := by rw [hmm]; exact hv
        have habort := fuseLoop_abort (.selection rt rsels rpreds rsks) rt rsels
          (root_tables rt) cands false [] ⟨v, hv2', hv1, hv2, hv3⟩
        have hne2 : cands ≠ [] := by rw [hmm]; exact hne
        rw [if_neg (not_not_intro hmm)]
        rw [if_neg (by simpa [List.isEmpty_iff] using hne2)]
        simp only [habort, Bool.false_eq_true, if_false]
      · rw [if_pos hmm]
  simp only [projector_get_result, Expr.isSelection, if_true]
  rw [key]

/-- Witness for the amended C6 at a concrete input: a column over a foreign
table aborts fusion and the parent is wrapped. -/
theorem projection_fusion_abort_witness :
    (∃ v ∈ ([Expr.column (.physicalTable "u" ["x"]) "x"].map windowize_function),
      starCond
          (.selection (.physicalTable "t" ["a"]) [.physicalTable "t" ["a"]] [] [])
          (root_tables (.physicalTable "t" ["a"])) v = false ∧
      shares_all_roots (substitute_parents v false)
          (.physicalTable "t" ["a"]) = false ∧
      shares_all_roots v (.physicalTable "t" ["a"]) = false) ∧
    projector_get_result
        (.selection (.physicalTable "t" ["a"]) [.physicalTable "t" ["a"]] [] [])
        [.column (.physicalTable "u" ["x"]) "x"] =
      .selection
        (.selection (.physicalTable "t" ["a"]) [.physicalTable "t" ["a"]] [] [])
        [.column (.physicalTable "u" ["x"]) "x"] [] [] := by
  refine ⟨by decide, ?_⟩
  have h := projection_fusion_abort (.physicalTable "t" ["a"])
    [.physicalTable "t" ["a"]] [] [] [.column (.physicalTable "u" ["x"]) "x"]
    (by decide)
  simpa using h

/-! ### Pushdown eligibility (claim C7) -/

/-- The eligibility condition as the spec words it (for comparison with the
code): a predicate column is covered iff (a) it is a column of some
physical-table entry directly present in the Selection's selection list, or
(b) it is an unaliased column reference whose source table, after lifting
without crossing projections, matches the Selection's underlying table
`opTable`. -/
def specPushdownAorB (opTable : Expr) (sels : List Expr) (c : Expr) : Bool :=
  match c with
  | .column ct cn =>
      (sels.any fun v => v.isPhysical && decide (cn ∈ v.schemaOf)) ||
        (match substitute_parents (.column ct cn) false with
         | .column lt _ => lt = opTable
         | _ => false)
  | _ => false

/-- What one selection-list entry must look like to justify a predicate
column `column ct cn` in `_validate_projection`: a physical table providing
the name, or an equally-named unaliased column entry whose own source table
equals the predicate column's table directly or after projection-blocked
lifting. -/
def validEntry (ct : Expr) (cn : String) (entry : Expr) : Bool :=
  (entry.isPhysical && decide (cn ∈ entry.schemaOf)) ||
    (match entry with
     | .column et en =>
        decide (en = cn) &&
          (decide (et = ct) ||
            (match substitute_parents (.column ct cn) false with
             | .column lt _ => decide (et = lt)
             | _ => false))
     | _ => false)

/-- A true outcome of the `_validate_projection` fold is justified by some
selection-list entry. -/
theorem validateProjection_exists (sels : List Expr) (ct : Expr) (cn : String)
    (h : validateProjection sels ct cn = true) :
    ∃ entry ∈ sels, validEntry ct cn entry = true := by
  have aux : ∀ (l : List Expr) (acc : Bool),
      (l.foldl
        (fun isValid val =>
          if val.isPhysical && decide (cn ∈ val.schemaOf) then true
          else
            match val with
            | .column et vn =>
                if vn = cn then
                  let lifted :=
                    substitute_parents (.column ct cn) false
                  et = ct ||
                    (match lifted with
                     | .column lt _ => et = lt
                     | _ => false)
                else isValid
            | _ => isValid)
        acc) = true →
      acc = true ∨ ∃ entry ∈ l, validEntry ct cn entry = true := by
    intro l
    induction l with
    | nil => intro acc h; exact Or.inl h
    | cons v rest ih =>
        intro acc h
        simp only [List.foldl_cons] at h
        rcases ih _ h with hstep | ⟨entry, hmem, hgood⟩
        · by_cases hphys : v.isPhysical && decide (cn ∈ v.schemaOf)
          · exact Or.inr ⟨v, List.mem_cons_self v rest,
              by simp only [validEntry, Bool.or_eq_true]; exact Or.inl hphys⟩
          · rw [if_neg hphys] at hstep
            cases v with
            | column et vn =>
                by_cases hnm : vn = cn
                · refine Or.inr ⟨.column et vn, List.mem_cons_self _ rest, ?_⟩
                  simp only [hnm] at hstep ⊢
                  simp only [validEntry, Expr.isPhysical, Expr.schemaOf,
                    Bool.false_and, Bool.false_or]
                  simpa using hstep
                · exact Or.inl (by simpa [hnm] using hstep)
            | lit w => exact Or.inl hstep
            | gt a b2 => exact Or.inl hstep
            | sumR a => exact Or.inl hstep
            | aliasE a nm => exact Or.inl hstep
            | windowE a => exact Or.inl hstep
            | tableArrayView a => exact Or.inl hstep
            | physicalTable nm sch => exact Or.inl hstep
            | selection a b2 c d => exact Or.inl hstep
            | aggregation a b2 c d f g => exact Or.inl hstep
            | join a b2 c => exact Or.inl hstep
        · exact Or.inr ⟨entry, List.mem_cons_of_mem v hmem, hgood⟩
  rcases aux sels false h with hfalse | hex
  · cases hfalse
  · exact hex

/-- Every element collected by the value-spine walk is a `TableColumn`. -/
theorem spineValueColumns_shape :
    ∀ (e : Expr), ∀ c ∈ spineValueColumns e, ∃ ct cn, c = .column ct cn := by
  have main : ∀ n : Nat, ∀ e : Expr, sizeOf e ≤ n →
      ∀ c ∈ spineValueColumns e, ∃ ct cn, c = .column ct cn := by
    intro n
    induction n using Nat.strong_induction_on with
    | _ n ih =>
      intro e hs c hc
      cases e with
      | lit v => cases hc
      | column t nm =>
          rcases List.mem_singleton.mp hc with rfl
          exact ⟨t, nm, rfl⟩
      | gt l r =>
          rcases List.mem_append.mp hc with h | h
          · exact ih (sizeOf l) (by simp at hs; omega) l (Nat.le_refl _) c h
          · exact ih (sizeOf r) (by simp at hs; omega) r (Nat.le_refl _) c h
      | sumR a => exact ih (sizeOf a) (by simp at hs; omega) a (Nat.le_refl _) c hc
      | aliasE a nm =>
          exact ih (sizeOf a) (by simp at hs; omega) a (Nat.le_refl _) c hc
      | windowE a =>
          exact ih (sizeOf a) (by simp at hs; omega) a (Nat.le_refl _) c hc
      | tableArrayView t => cases hc
      | physicalTable nm s => cases hc
      | selection t s p k => cases hc
      | aggregation t m b h p k => cases hc
      | join l r p => cases hc
  exact fun e => main (sizeOf e) e (Nat.le_refl _)

/-- Counterexample to claim C7 as stated: for a (blocking) Selection over a
join whose selection list holds plain column references, the predicate
`t.a > 0` is judged pushdown-eligible by `_can_pushdown` — the code compares
the predicate column's table with the matching selection entry's own source
table — even though the column is neither (a) covered by a physical-table
entry in the selection list nor (b) a column whose (lifted) source table
matches the Selection's underlying table (the join). -/
theorem pushdown_eligibility_counterexample :
    can_pushdown
        [.column (.physicalTable "t" ["a"]) "a",
         .column (.physicalTable "u" ["x"]) "x"]
        [.gt (.column (.physicalTable "t" ["a"]) "a") (.lit 0)] = true ∧
    (Expr.selection
        (.join (.physicalTable "t" ["a"]) (.physicalTable "u" ["x"]) [])
        [.column (.physicalTable "t" ["a"]) "a",
         .column (.physicalTable "u" ["x"]) "x"] [] []).blocks = true ∧
    is_reduction (.gt (.column (.physicalTable "t" ["a"]) "a") (.lit 0)) =
      false ∧
    specPushdownAorB
        (.join (.physicalTable "t" ["a"]) (.physicalTable "u" ["x"]) [])
        [.column (.physicalTable "t" ["a"]) "a",
         .column (.physicalTable "u" ["x"]) "x"]
        (.column (.physicalTable "t" ["a"]) "a") = false := by
  refine ⟨by decide, by decide, by decide, by decide⟩

/-- Claim C7 as amended: pushdown eligibility, the necessary condition the
code actually enforces.  A predicate judged pushdown-eligible (`_can_pushdown`
true) contains no reduction reachable above a table node, and every
`TableColumn` it references through value arguments is justified by some
entry of the Selection's selection list: either a physical-table entry
providing the column's name, or an equally-named unaliased column entry whose
own source table equals the predicate column's source table (directly or
after lifting without crossing projections). -/
theorem pushdown_eligibility_only_if (sels : List Expr) (preds : List Expr)
    (h : can_pushdown sels preds = true) :
    ∀ p ∈ preds, is_reduction p = false ∧
      ∀ c ∈ spineValueColumns p, ∃ ct cn, c = .column ct cn ∧
        ∃ entry ∈ sels, validEntry ct cn entry = true := by
  intro p hp
  have hv : pushdownValidate sels p = true := by
    have := (List.all_eq_true.mp h) p hp
    simpa using this
  by_cases hred : is_reduction p
  · rw [pushdownValidate, if_pos hred] at hv
    cases hv
  · refine ⟨by simpa using hred, ?_⟩
    rw [pushdownValidate, if_neg hred] at hv
    intro c hc
    obtain ⟨ct, cn, rfl⟩ := spineValueColumns_shape p c hc
    have := (List.all_eq_true.mp hv) _ hc
    simp only at this
    exact ⟨ct, cn, rfl, validateProjection_exists sels ct cn this⟩

/-- Witness for the amended C7 at a concrete input: a filter over a plain
projection of a physical table is eligible, every referenced column being
covered by the physical-table entry. -/
theorem pushdown_eligibility_only_if_witness :
    can_pushdown [.physicalTable "t" ["a", "b"]]
        [.gt (.column (.physicalTable "t" ["a", "b"]) "a") (.lit 0)] = true ∧
    (∀ p ∈ [Expr.gt (.column (.physicalTable "t" ["a", "b"]) "a") (.lit 0)],
      is_reduction p = false ∧
      ∀ c ∈ spineValueColumns p, ∃ ct cn, c = .column ct cn ∧
        ∃ entry ∈ [Expr.physicalTable "t" ["a", "b"]],
          validEntry ct cn entry = true) :=
  ⟨by decide, pushdown_eligibility_only_if _ _ (by decide)⟩

/-! ### Pushdown fusion frame (claim C8) -/

/-- Counterexample to claim C8 as universally stated: for a NON-blocking
Selection (a bare filter, empty projection list), `_filter_selection` takes
the early fusion branch — predicates rewritten by `sub_for` and merged — even
though the predicate fails `_can_pushdown` validation (the claim would demand
a brand-new wrapping Selection). -/
theorem pushdown_fusion_frame_counterexample :
    can_pushdown []
        [.gt (.column (.selection (.physicalTable "t" ["a"]) []
          [.gt (.column (.physicalTable "t" ["a"]) "a") (.lit 1)] []) "a")
          (.lit 0)] = false ∧
    filter_selection (.physicalTable "t" ["a"]) []
        [.gt (.column (.physicalTable "t" ["a"]) "a") (.lit 1)] []
        [.gt (.column (.selection (.physicalTable "t" ["a"]) []
          [.gt (.column (.physicalTable "t" ["a"]) "a") (.lit 1)] []) "a")
          (.lit 0)] =
      .selection (.physicalTable "t" ["a"]) []
        [.gt (.column (.physicalTable "t" ["a"]) "a") (.lit 1),
         .gt (.column (.physicalTable "t" ["a"]) "a") (.lit 0)] [] ∧
    (Expr.selection (.physicalTable "t" ["a"]) []
        [.gt (.column (.physicalTable "t" ["a"]) "a") (.lit 1),
         .gt (.column (.physicalTable "t" ["a"]) "a") (.lit 0)] []) ≠
      .selection
        (.selection (.physicalTable "t" ["a"]) []
          [.gt (.column (.physicalTable "t" ["a"]) "a") (.lit 1)] [])
        []
        [.gt (.column (.selection (.physicalTable "t" ["a"]) []
          [.gt (.column (.physicalTable "t" ["a"]) "a") (.lit 1)] []) "a")
          (.lit 0)] [] := by
  refine ⟨by decide, by decide, by decide⟩

/-- Claim C8 as amended: the pushdown fusion frame for BLOCKING Selections
(nonempty projection list).  If every predicate validates, the result keeps
the table, selection list and sort keys unchanged and appends the
`substitute_parents`-simplified new predicates to the existing ones; if any
predicate fails to validate, the original expression is wrapped in a
brand-new Selection carrying the raw predicates and an empty projection
list. -/
theorem pushdown_fusion_frame (tbl : Expr) (sels preds sks newPreds : List Expr)
    (hblock : sels ≠ []) :
    filter_selection tbl sels preds sks newPreds =
      if can_pushdown sels newPreds then
        .selection tbl sels
          (preds ++ newPreds.map (fun x => substitute_parents x true)) sks
      else .selection (.selection tbl sels preds sks) [] newPreds [] := by
  have hb : (Expr.selection tbl sels preds sks).blocks = true := by
    simp only [Expr.blocks, Bool.not_eq_true']
    simpa [List.isEmpty_iff] using hblock
  simp only [filter_selection, hb, Bool.not_true, Bool.false_eq_true, if_false]

/-- Witness for the amended C8 at a concrete input: a validating predicate is
appended into the blocking Selection's predicate list with everything else
unchanged. -/
theorem pushdown_fusion_frame_witness :
    ([Expr.physicalTable "t" ["a"]] ≠ ([] : List Expr)) ∧
    filter_selection (.physicalTable "t" ["a"]) [.physicalTable "t" ["a"]]
        [] [] [.gt (.column (.physicalTable "t" ["a"]) "a") (.lit 0)] =
      .selection (.physicalTable "t" ["a"]) [.physicalTable "t" ["a"]]
        [.gt (.column (.physicalTable "t" ["a"]) "a") (.lit 0)] [] := by
  refine ⟨by decide, ?_⟩
  rw [pushdown_fusion_frame _ _ _ _ _ (by decide)]
  decide

/-! ### Single-table reduction rewrite (claim C9) -/

/-- Claim C9: for a scalar reduction whose immediate parent tables are
exactly `[t]`, the filter-reduction rewrite produces `t.aggregate([r])`
followed by extraction of the aggregated column for the filter context
(`aggregation.to_array()`, the one-column view of the aggregate): the result
is the `TableArrayView` of an Aggregation over `t` whose sole metric is the
reduction carrying its requested name. -/
theorem single_table_reduction_rewrite (e : Expr) (nm : Option String)
    (t : Expr) (hsr : is_scalar_reduction e = true)
    (h : find_immediate_parent_tables
        (match nm with | some n => .aliasE e n | none => e) = [t]) :
    rewrite_filter_reduction nm e =
      .tableArrayView
        (.aggregation t
          [match nm with | some n => .aliasE e n | none => e]
          [] [] [] []) := by
  cases nm with
  | none =>
      simp only [rewrite_filter_reduction, reduction_to_aggregation]
      simp only at h
      rw [h]
  | some n =>
      simp only [rewrite_filter_reduction, reduction_to_aggregation]
      simp only at h
      rw [h]

/-- Witness for C9 at a concrete input: `sum(t.x)` named `"s"` becomes the
array view of `t.aggregate([x_sum named "s"])`. -/
theorem single_table_reduction_rewrite_witness :
    is_scalar_reduction (.sumR (.column (.physicalTable "t" ["x"]) "x")) =
        true ∧
    find_immediate_parent_tables
        (.aliasE (.sumR (.column (.physicalTable "t" ["x"]) "x")) "s") =
      [.physicalTable "t" ["x"]] ∧
    rewrite_filter_reduction (some "s")
        (.sumR (.column (.physicalTable "t" ["x"]) "x")) =
      .tableArrayView
        (.aggregation (.physicalTable "t" ["x"])
          [.aliasE (.sumR (.column (.physicalTable "t" ["x"]) "x")) "s"]
          [] [] [] []) := by
  refine ⟨by decide, by decide, ?_⟩
  exact single_table_reduction_rewrite _ (some "s") _ (by decide) (by decide)
